import Mathlib

set_option linter.unusedSectionVars false
set_option linter.unusedVariables false
set_option maxHeartbeats 1000000

/-!
# Verification of the `nge::cntr::Map` open-addressing hash map

Shallow embedding of `include/engine/containers/map.h` (the primary variant;
the sibling variant in the repository differs only where noted).

Modelling conventions:
* The C++ class `Map<K, V>` becomes the structure `Nge.Map K V`.
* `_bins` is a `List (Option Nat)`; `none` models the `BIN_EMPTY` sentinel
  (`uint32(-1)`), `some i` a valid index into the pair store.
* `_pairs` (a `DynamicArray<Pair>`; `dynamic_array.h` itself is not in the
  source tree) is modelled from the spec as a dense `List (K × V)`:
  `push` appends, `removeAt` compacts by shifting later entries down one
  index, `clear` empties, `operator[]` is positional indexing.
* The pluggable hash function is a stored field `hashFunc : K → Nat`.
* Operations whose C++ execution can hit an assertion failure / undefined
  behaviour (probing past the end of the bin table, reading through an
  invalid store index) return `Option`; `none` models the abnormal outcome.
* `MemoryUtils::set` (filling the bin array with `BIN_EMPTY`) becomes
  `List.replicate count none`.
-/

namespace Nge

/-- The map state: hash function, pair store, bin table and the cached
number of occupied bins.  `_binCount` is the length of `bins`. -/
structure Map (K V : Type) where
  hashFunc : K → Nat
  pairs : List (K × V)
  bins : List (Option Nat)
  binsInUse : Nat

namespace Map

variable {K V : Type} [DecidableEq K]

/-- `MIN_BINS`: the minimum number of bins. -/
def MIN_BINS : Nat := 32

/-- `GROW_THRESHOLD`: load percentage at which the map grows. -/
def GROW_THRESHOLD : Nat := 70

/-- `SHRINK_THRESHOLD`: load percentage at which the map shrinks. -/
def SHRINK_THRESHOLD : Nat := 30

/-- `_binCount`: the total number of bins. -/
def binCount (m : Map K V) : Nat := m.bins.length

/-- `hash`: computes the hash for the given key via the stored function. -/
def hash (m : Map K V) (key : K) : Nat := m.hashFunc key

/-- `probe`: probes for the next position.  The source returns the raw
probe counter unchanged. -/
def probe (_ : Map K V) (probes : Nat) : Nat := probes

/-- `wrap`: wraps a bin index into bounds via bitwise AND with
`_binCount - 1`. -/
def wrap (m : Map K V) (index : Nat) : Nat := index &&& (m.binCount - 1)

/-- The store index held by bin `binIndex`: `none` if the bin is `EMPTY`
or out of range. -/
def binAt (m : Map K V) (binIndex : Nat) : Option Nat := (m.bins[binIndex]?).join

/-- `isBinEmpty`: the bin holds `BIN_EMPTY`.  The source asserts
`binIndex < _binCount`; every use below is guarded by that bound. -/
def isBinEmpty (m : Map K V) (binIndex : Nat) : Bool := (m.binAt binIndex).isNone

/-- `doesBinContain`: the bin is in range, non-empty, and its referenced
pair-store entry has the given key.  An out-of-range store read is
undefined behaviour in the source; it is modelled as a mismatch. -/
def doesBinContain (m : Map K V) (binIndex : Nat) (key : K) : Bool :=
  decide (binIndex < m.binCount) && !(m.isBinEmpty binIndex) &&
    (match (m.binAt binIndex).bind (fun idx => m.pairs[idx]?) with
     | some p => decide (p.1 = key)
     | none => false)

/-- The loop of `findBinForKey`: state `(i, probes)`, continue while the
bin is neither empty nor a key match, stepping `i = probe(++probes)`.
The explicit `i < binCount` test models the `assert` inside `isBinEmpty`;
running past it (or out of fuel, which the top-level call never does)
yields `none` = abnormal termination. -/
def findBinGo (m : Map K V) (key : K) : Nat → Nat → Nat → Option Nat
  | _, _, 0 => none
  | i, probes, fuel + 1 =>
    if i < m.binCount then
      if !(m.isBinEmpty i) && !(m.doesBinContain i key) then
        findBinGo m key (m.probe (probes + 1)) (probes + 1) fuel
      else
        some i
    else
      none

/-- `findBinForKey`: starting at `wrap(hash(key))` with `probes = 0`,
walk the probe sequence to the first bin that is empty or holds the key. -/
def findBinForKey (m : Map K V) (key : K) : Option Nat :=
  findBinGo m key (m.wrap (m.hash key)) 0 (m.binCount + 2)

/-- The stop condition of the probe loop: empty bin or key match. -/
def stopBin (m : Map K V) (key : K) (c : Nat) : Bool :=
  m.isBinEmpty c || m.doesBinContain c key

/-- First-stop scan over an explicit list of candidate bin indices; used
to characterise `findBinForKey`.  Mirrors the loop body: an out-of-bounds
candidate aborts (`none`), a stopping candidate is returned. -/
def scanBins (m : Map K V) (key : K) : List Nat → Option Nat
  | [] => none
  | c :: rest =>
    if c < m.binCount then
      if !(m.isBinEmpty c) && !(m.doesBinContain c key) then scanBins m key rest
      else some c
    else none

/-- The candidate bins examined after the initial hashed bin: the raw
probe counters 1, 2, 3, ... (`binCount + 1` of them; the last ones are
out of range and serve as the abnormal-termination marker). -/
def candTail (m : Map K V) : List Nat := List.range' 1 (m.binCount + 1)

/-- Modelled from the spec wording of claim C1 (NOT from the source), for
comparison with `findBinForKey`: linear probing whose k-th candidate bin
is `wrap(hash(key) + k)`, k = 0, 1, 2, ..., stopping at the first empty
or key-matching bin. -/
def findBinForKeyClaimed (m : Map K V) (key : K) : Option Nat :=
  scanBins m key ((List.range (m.binCount + 2)).map (fun k => m.wrap (m.hash key + k)))

/-- `has`: whether `findBinForKey` resolves to a non-empty bin. -/
def has (m : Map K V) (key : K) : Bool :=
  match findBinForKey m key with
  | some b => !(m.isBinEmpty b)
  | none => false

/-- `operator[] const`: value of an existing key; the source asserts the
resolved bin is non-empty, so a missing key (or failed probe) is `none`. -/
def getConst (m : Map K V) (key : K) : Option V :=
  match findBinForKey m key with
  | some b =>
    match (m.binAt b).bind (fun idx => m.pairs[idx]?) with
    | some p => some p.2
    | none => none
  | none => none

/-- `put(key, value)` (copy and move overloads are identical up to value
transfer): find the bin; if empty, claim it for a fresh entry appended to
the store; otherwise overwrite the referenced entry in place.
Note: the source performs NO growth check here. -/
def put (m : Map K V) (key : K) (value : V) : Option (Map K V) :=
  match findBinForKey m key with
  | none => none
  | some binIndex =>
    if m.isBinEmpty binIndex then
      some { m with
        binsInUse := m.binsInUse + 1,
        bins := m.bins.set binIndex (some m.pairs.length),
        pairs := m.pairs ++ [(key, value)] }
    else
      match m.binAt binIndex with
      | some idx => some { m with pairs := m.pairs.set idx (key, value) }
      | none => none

/-- `clearBins`: `MemoryUtils::set(_bins, BIN_EMPTY, _binCount)`. -/
def clearBins (m : Map K V) : Map K V :=
  { m with bins := List.replicate m.binCount none }

/-- `clear`: clear the bins, empty the pair store, zero `binsInUse`.
The bin-table capacity is untouched. -/
def clear (m : Map K V) : Map K V :=
  { m.clearBins with pairs := [], binsInUse := 0 }

/-- The rehash loop of `resize`: for each store index `i` in order,
find the bin for `_pairs[i].key` against the current (new) table and
write `i` into it.  Fuel is the store size at the call site. -/
def rehashGo : Nat → Map K V → Nat → Option (Map K V)
  | 0, m, _ => some m
  | fuel + 1, m, i =>
    match m.pairs[i]? with
    | none => some m
    | some p =>
      match findBinForKey m p.1 with
      | none => none
      | some pos => rehashGo fuel { m with bins := m.bins.set pos (some i) } (i + 1)

/-- `resize(newSize)`: release the bins, allocate `newSize` empty ones,
then rehash every store entry.  `_binsInUse` is not touched. -/
def resize (m : Map K V) (newSize : Nat) : Option (Map K V) :=
  rehashGo m.pairs.length { m with bins := List.replicate newSize none } 0

/-- `shouldShrink`: load at most 30 percent and above the bin floor. -/
def shouldShrink (m : Map K V) : Bool :=
  decide ((m.binsInUse * 100) / m.binCount ≤ SHRINK_THRESHOLD) &&
    decide (MIN_BINS < m.binCount)

/-- `shouldGrow`: load at least 70 percent. -/
def shouldGrow (m : Map K V) : Bool :=
  decide (GROW_THRESHOLD ≤ (m.binsInUse * 100) / m.binCount)

/-- `grow`: resize to twice the capacity (`_binCount << 1`). -/
def grow (m : Map K V) : Option (Map K V) := m.resize (m.binCount <<< 1)

/-- `shrink`: resize to half the capacity (`_binCount >> 1`). -/
def shrink (m : Map K V) : Option (Map K V) := m.resize (m.binCount >>> 1)

/-- The bin-index fixup applied to every bin after a store removal:
indices greater than the removed one are decremented. -/
def fixupBin (removedIdx : Nat) : Option Nat → Option Nat
  | none => none
  | some v => if removedIdx < v then some (v - 1) else some v

/-- The state after a successful removal through bin `binIndex`, whose
referenced store index is `removedIdx`: `binsInUse` decremented, the
store compacted at `removedIdx` (`_pairs.removeAt`), every bin index
greater than `removedIdx` decremented, the vacated bin set `EMPTY`. -/
def removeState (m1 : Map K V) (binIndex removedIdx : Nat) : Map K V :=
  { m1 with
    binsInUse := m1.binsInUse - 1,
    pairs := m1.pairs.eraseIdx removedIdx,
    bins := (m1.bins.map (fixupBin removedIdx)).set binIndex none }

/-- `remove(key)` (primary, void-returning variant): shrink-check first,
then look the key up; on a hit, compact the store at the referenced
index, decrement `binsInUse`, decrement every bin index greater than the
removed one, and empty the matched bin.  A miss is a silent no-op. -/
def remove (m : Map K V) (key : K) : Option (Map K V) :=
  (if m.shouldShrink then m.shrink else some m).bind fun m1 =>
    match findBinForKey m1 key with
    | none => none
    | some binIndex =>
      if m1.isBinEmpty binIndex then some m1
      else
        match m1.binAt binIndex with
        | none => none
        | some removedIdx => some (removeState m1 binIndex removedIdx)

/-- `operator[]` (write-or-create): growth-check first, then find the
bin; if empty, insert a default-constructed value; return the referenced
value (paired with the possibly-updated map). -/
def getOrCreate [Inhabited V] (m : Map K V) (key : K) : Option (Map K V × V) :=
  (if m.shouldGrow then m.grow else some m).bind fun m1 =>
    match findBinForKey m1 key with
    | none => none
    | some binIndex =>
      let m2 :=
        if m1.isBinEmpty binIndex then
          { m1 with
            binsInUse := m1.binsInUse + 1,
            bins := m1.bins.set binIndex (some m1.pairs.length),
            pairs := m1.pairs ++ [(key, (default : V))] }
        else m1
      match (m2.binAt binIndex).bind (fun idx => m2.pairs[idx]?) with
      | some p => some (m2, p.2)
      | none => none

/-- `size()`: the pair-store size. -/
def size (m : Map K V) : Nat := m.pairs.length

/-- `isEmpty()`: whether the pair store is empty. -/
def isEmpty (m : Map K V) : Bool := m.pairs.isEmpty

/-- The capacity loop of the constructors: starting from `MIN_BINS`,
double while below the requested capacity (`_binCount <<= 1`).  The fuel
argument makes the recursion structural; `initialBinCount` supplies
enough fuel that it never runs out. -/
def growBinCount : Nat → Nat → Nat → Nat
  | 0, binCount, _ => binCount
  | fuel + 1, binCount, capacity =>
    if binCount < capacity then growBinCount fuel (binCount <<< 1) capacity
    else binCount

/-- The bin count chosen by the capacity constructor. -/
def initialBinCount (capacity : Nat) : Nat := growBinCount capacity MIN_BINS capacity

/-- The constructors `Map()`, `Map(capacity)`, `Map(hashFunc)`,
`Map(capacity, hashFunc)` (and the allocator overloads, whose allocators
have no observable effect in the model): empty store, `initialBinCount
capacity` empty bins, zero `binsInUse`.  The default constructors are
`mkMap hashFunc 0` since `initialBinCount 0 = MIN_BINS`. -/
def mkMap (hashFunc : K → Nat) (capacity : Nat) : Map K V :=
  { hashFunc := hashFunc
    pairs := []
    bins := List.replicate (initialBinCount capacity) none
    binsInUse := 0 }

/-- The copy constructor / copy assignment: deep copy of the pair store
and raw copy of the bin table; the abstract state is identical. -/
def copyMap (m : Map K V) : Map K V :=
  { hashFunc := m.hashFunc, pairs := m.pairs, bins := m.bins, binsInUse := m.binsInUse }

/-- The move constructor / move assignment: the destination takes every
field; the source is reset to null bins and zeroed counts.  That the
moved-from `DynamicArray` is left empty is modelled from the spec
(`dynamic_array.h` is not in the source tree): moving "resets the source
to an empty-but-valid state (zeroed counts, null storage)". -/
def moveMap (m : Map K V) : Map K V × Map K V :=
  ({ hashFunc := m.hashFunc, pairs := m.pairs, bins := m.bins, binsInUse := m.binsInUse },
   { hashFunc := m.hashFunc, pairs := [], bins := [], binsInUse := 0 })

/-- The number of non-`EMPTY` bins (what `_binsInUse` caches). -/
def countBins (m : Map K V) : Nat := m.bins.countP fun b => b.isSome

/-! ## The probe loop as a first-stop scan over the candidate list -/

theorem scanBins_cons (m : Map K V) (key : K) (c : Nat) (rest : List Nat) :
    scanBins m key (c :: rest) =
      if c < m.binCount then
        if stopBin m key c then some c else scanBins m key rest
      else none := by
  cases h1 : m.isBinEmpty c <;> cases h2 : m.doesBinContain c key <;>
    simp [scanBins, stopBin, h1, h2]

theorem findBinGo_succ_eq_scanBins (m : Map K V) (key : K) :
    ∀ (fuel i probes : Nat),
      findBinGo m key i probes (fuel + 1) =
        scanBins m key (i :: List.range' (probes + 1) fuel) := by
  intro fuel
  induction fuel with
  | zero =>
    intro i probes
    simp [findBinGo, scanBins]
  | succ fuel ih =>
    intro i probes
    rw [List.range'_succ]
    have step : findBinGo m key i probes (fuel + 1 + 1) =
        if i < m.binCount then
          if !(m.isBinEmpty i) && !(m.doesBinContain i key) then
            findBinGo m key (probes + 1) (probes + 1) (fuel + 1)
          else some i
        else none := rfl
    have step2 : scanBins m key (i :: (probes + 1) :: List.range' (probes + 1 + 1) fuel) =
        if i < m.binCount then
          if !(m.isBinEmpty i) && !(m.doesBinContain i key) then
            scanBins m key ((probes + 1) :: List.range' (probes + 1 + 1) fuel)
          else some i
        else none := rfl
    rw [step, step2, ih]

theorem findBinForKey_eq_scanBins (m : Map K V) (key : K) :
    findBinForKey m key = scanBins m key (m.wrap (m.hash key) :: candTail m) := by
  show findBinGo m key (m.wrap (m.hash key)) 0 (m.binCount + 1 + 1) = _
  rw [findBinGo_succ_eq_scanBins]
  rfl

theorem stopBin_of_scanBins_eq_some (m : Map K V) (key : K) :
    ∀ (l : List Nat) (b : Nat), scanBins m key l = some b →
      b < m.binCount ∧ stopBin m key b = true := by
  intro l
  induction l with
  | nil => intro b h; simp [scanBins] at h
  | cons c rest ih =>
    intro b h
    rw [scanBins_cons] at h
    by_cases hc : c < m.binCount
    · rw [if_pos hc] at h
      by_cases hs : stopBin m key c = true
      · rw [if_pos hs] at h
        cases h
        exact ⟨hc, hs⟩
      · rw [if_neg hs] at h
        exact ih b h
    · rw [if_neg hc] at h
      cases h

theorem scanBins_isSome_append (m : Map K V) (key : K) :
    ∀ (l1 : List Nat) (j : Nat) (l2 : List Nat),
      (∀ c ∈ l1, c < m.binCount) → j < m.binCount → stopBin m key j = true →
      ∃ b, scanBins m key (l1 ++ j :: l2) = some b := by
  intro l1
  induction l1 with
  | nil =>
    intro j l2 _ hj hs
    exact ⟨j, by rw [List.nil_append, scanBins_cons, if_pos hj, if_pos hs]⟩
  | cons c rest ih =>
    intro j l2 h1 hj hs
    have hc : c < m.binCount := h1 c (by simp)
    by_cases hstop : stopBin m key c = true
    · exact ⟨c, by rw [List.cons_append, scanBins_cons, if_pos hc, if_pos hstop]⟩
    · obtain ⟨b, hb⟩ := ih j l2 (fun x hx => h1 x (by simp [hx])) hj hs
      exact ⟨b, by rw [List.cons_append, scanBins_cons, if_pos hc, if_neg hstop, hb]⟩

theorem scanBins_preserve (m m2 : Map K V) (key : K) :
    ∀ (l : List Nat) (b : Nat),
      m2.binCount = m.binCount →
      (∀ c, c < m.binCount → stopBin m key c = false → stopBin m2 key c = false) →
      stopBin m2 key b = true →
      scanBins m key l = some b →
      scanBins m2 key l = some b := by
  intro l
  induction l with
  | nil => intro b _ _ _ h; simp [scanBins] at h
  | cons c rest ih =>
    intro b hbc hns hb h
    rw [scanBins_cons] at h
    rw [scanBins_cons, hbc]
    by_cases hc : c < m.binCount
    · rw [if_pos hc] at h ⊢
      by_cases hs : stopBin m key c = true
      · rw [if_pos hs] at h
        cases h
        rw [if_pos hb]
      · have hs2 : stopBin m2 key c = false :=
          hns c hc (Bool.not_eq_true _ ▸ (by simpa using hs))
        rw [if_neg hs] at h
        rw [if_neg (by simp [hs2])]
        exact ih b hbc hns hb h
    · rw [if_neg hc] at h
      cases h

theorem scanBins_congr (m m2 : Map K V) (key : K) :
    ∀ (l : List Nat),
      m2.binCount = m.binCount →
      (∀ c, c < m.binCount → stopBin m2 key c = stopBin m key c) →
      scanBins m2 key l = scanBins m key l := by
  intro l
  induction l with
  | nil => intro _ _; rfl
  | cons c rest ih =>
    intro hbc hag
    rw [scanBins_cons, scanBins_cons, hbc]
    by_cases hc : c < m.binCount
    · rw [if_pos hc, if_pos hc, hag c hc, ih hbc hag]
    · rw [if_neg hc, if_neg hc]

theorem wrap_lt (m : Map K V) (index : Nat) (h : 0 < m.binCount) :
    m.wrap index < m.binCount :=
  Nat.lt_of_le_of_lt Nat.and_le_right (Nat.sub_lt h Nat.one_pos)

theorem findBinForKey_spec (m : Map K V) (key : K) (b : Nat)
    (h : findBinForKey m key = some b) :
    b < m.binCount ∧ stopBin m key b = true := by
  rw [findBinForKey_eq_scanBins] at h
  exact stopBin_of_scanBins_eq_some m key _ b h

theorem findBinForKey_isSome (m : Map K V) (key : K) (j : Nat)
    (h1 : 1 ≤ j) (hj : j < m.binCount) (hstop : stopBin m key j = true) :
    ∃ b, findBinForKey m key = some b := by
  rw [findBinForKey_eq_scanBins]
  have hsplit : m.wrap (m.hash key) :: candTail m =
      (m.wrap (m.hash key) :: List.range' 1 (j - 1)) ++
        j :: List.range' (j + 1) (m.binCount + 1 - j) := by
    have h2 : List.range' 1 (j - 1) ++ List.range' j (m.binCount + 2 - j) =
        List.range' 1 (m.binCount + 1) := by
      have := List.range'_append_1 1 (j - 1) (m.binCount + 2 - j)
      rw [show 1 + (j - 1) = j by omega] at this
      rw [this]
      congr 1
      omega
    have h3 : List.range' j (m.binCount + 2 - j) =
        j :: List.range' (j + 1) (m.binCount + 1 - j) := by
      rw [show m.binCount + 2 - j = (m.binCount + 1 - j) + 1 by omega]
      rw [List.range'_succ]
    rw [candTail, ← h2, h3]
    simp
  rw [hsplit]
  refine scanBins_isSome_append m key _ j _ ?_ hj hstop
  intro c hc
  rcases List.mem_cons.mp hc with hcw | hcr
  · subst hcw
    exact wrap_lt m _ (by omega)
  · obtain ⟨i, hi, rfl⟩ := List.mem_range'.mp hcr
    omega

theorem findBinForKey_preserve (m m2 : Map K V) (key : K) (b : Nat)
    (hf : m2.hashFunc = m.hashFunc) (hbc : m2.binCount = m.binCount)
    (hns : ∀ c, c < m.binCount → stopBin m key c = false → stopBin m2 key c = false)
    (hb : stopBin m2 key b = true)
    (hsome : findBinForKey m key = some b) :
    findBinForKey m2 key = some b := by
  rw [findBinForKey_eq_scanBins] at hsome ⊢
  have hcand : m2.wrap (m2.hash key) :: candTail m2 =
      m.wrap (m.hash key) :: candTail m := by
    rw [candTail, candTail, hbc, wrap, wrap, hbc, hash, hash, hf]
  rw [hcand]
  exact scanBins_preserve m m2 key _ b hbc hns hb hsome

theorem findBinForKey_congr (m m2 : Map K V) (key : K)
    (hf : m2.hashFunc = m.hashFunc) (hbc : m2.binCount = m.binCount)
    (hag : ∀ c, c < m.binCount → stopBin m2 key c = stopBin m key c) :
    findBinForKey m2 key = findBinForKey m key := by
  rw [findBinForKey_eq_scanBins, findBinForKey_eq_scanBins]
  have hcand : m2.wrap (m2.hash key) :: candTail m2 =
      m.wrap (m.hash key) :: candTail m := by
    rw [candTail, candTail, hbc, wrap, wrap, hbc, hash, hash, hf]
  rw [hcand]
  exact scanBins_congr m m2 key _ hbc hag

/-! ## List-level helpers -/

theorem countP_isSome_eq_length_filterMap :
    ∀ (l : List (Option Nat)), (l.countP fun b => b.isSome) = (l.filterMap id).length := by
  intro l
  induction l with
  | nil => rfl
  | cons a t ih =>
    cases a with
    | none => simpa [List.countP_cons] using ih
    | some v => simp [List.countP_cons, ih]

theorem nodup_getElem?_inj {α : Type} :
    ∀ (l : List α), l.Nodup →
      ∀ (i j : Nat) (a : α), l[i]? = some a → l[j]? = some a → i = j := by
  intro l
  induction l with
  | nil =>
    intro _ i j a hi _
    simp at hi
  | cons x t ih =>
    intro hnd i j a hi hj
    have hx : x ∉ t := (List.nodup_cons.mp hnd).1
    have ht : t.Nodup := (List.nodup_cons.mp hnd).2
    cases i with
    | zero =>
      cases j with
      | zero => rfl
      | succ j =>
        simp only [List.getElem?_cons_zero, Option.some.injEq] at hi
        simp only [List.getElem?_cons_succ] at hj
        exact absurd (by rw [hi]; exact List.getElem?_mem hj) hx
    | succ i =>
      cases j with
      | zero =>
        simp only [List.getElem?_cons_zero, Option.some.injEq] at hj
        simp only [List.getElem?_cons_succ] at hi
        exact absurd (by rw [hj]; exact List.getElem?_mem hi) hx
      | succ j =>
        simp only [List.getElem?_cons_succ] at hi hj
        exact congrArg Nat.succ (ih ht i j a hi hj)

theorem filterMap_id_nodup_inj :
    ∀ (l : List (Option Nat)), (l.filterMap id).Nodup →
      ∀ (b b2 v : Nat), l[b]? = some (some v) → l[b2]? = some (some v) → b = b2 := by
  intro l
  induction l with
  | nil =>
    intro _ b b2 v hb _
    simp at hb
  | cons x t ih =>
    intro hnd b b2 v hb hb2
    have htail : (t.filterMap id).Nodup := by
      cases x with
      | none => simpa using hnd
      | some w => exact ((List.nodup_cons.mp (by simpa using hnd)).2)
    cases b with
    | zero =>
      cases b2 with
      | zero => rfl
      | succ b2 =>
        simp only [List.getElem?_cons_zero, Option.some.injEq] at hb
        simp only [List.getElem?_cons_succ] at hb2
        subst hb
        have hnotin : v ∉ t.filterMap id := (List.nodup_cons.mp (by simpa using hnd)).1
        have hvmem : v ∈ t.filterMap id :=
          List.mem_filterMap.mpr ⟨some v, List.getElem?_mem hb2, rfl⟩
        exact absurd hvmem hnotin
    | succ b =>
      cases b2 with
      | zero =>
        simp only [List.getElem?_cons_zero, Option.some.injEq] at hb2
        simp only [List.getElem?_cons_succ] at hb
        subst hb2
        have hnotin : v ∉ t.filterMap id := (List.nodup_cons.mp (by simpa using hnd)).1
        have hvmem : v ∈ t.filterMap id :=
          List.mem_filterMap.mpr ⟨some v, List.getElem?_mem hb, rfl⟩
        exact absurd hvmem hnotin
      | succ b2 =>
        simp only [List.getElem?_cons_succ] at hb hb2
        exact congrArg Nat.succ (ih htail b b2 v hb hb2)

/-! ## Basic facts about bins -/

theorem binAt_eq_some_iff {m : Map K V} {b v : Nat} :
    m.binAt b = some v ↔ m.bins[b]? = some (some v) := by
  unfold binAt
  cases hcell : m.bins[b]? with
  | none => simp
  | some o => cases o <;> simp

theorem isBinEmpty_eq_false_iff {m : Map K V} {b : Nat} :
    m.isBinEmpty b = false ↔ ∃ idx, m.binAt b = some idx := by
  unfold isBinEmpty
  cases m.binAt b <;> simp

theorem isBinEmpty_eq_true_iff {m : Map K V} {b : Nat} :
    m.isBinEmpty b = true ↔ m.binAt b = none := by
  unfold isBinEmpty
  cases m.binAt b <;> simp

theorem doesBinContain_eq_true_iff {m : Map K V} {b : Nat} {key : K} :
    m.doesBinContain b key = true ↔
      b < m.binCount ∧
        ∃ idx p, m.binAt b = some idx ∧ m.pairs[idx]? = some p ∧ p.1 = key := by
  unfold doesBinContain isBinEmpty
  cases hb : m.binAt b with
  | none => simp [hb]
  | some idx =>
    simp only [Option.isNone_some, Bool.not_false, Bool.and_true, Option.some_bind]
    cases hp : m.pairs[idx]? with
    | none => simp [hp]
    | some p =>
      simp only [Bool.and_eq_true, decide_eq_true_eq]
      constructor
      · rintro ⟨hbc, hkey⟩
        exact ⟨hbc, idx, p, rfl, hp, hkey⟩
      · rintro ⟨hbc, idx2, p2, hidx2, hp2, hkey⟩
        cases hidx2
        rw [hp] at hp2
        cases hp2
        exact ⟨hbc, hkey⟩

/-! ## The implementation invariant -/

/-- A bin cell is either `EMPTY` or a valid pair-store index. -/
def binOk (len : Nat) : Option Nat → Bool
  | none => true
  | some v => decide (v < len)

/-- Well-formedness of a map state, as maintained by the operations:
the bin count is a power of two with floor `MIN_BINS`; every bin is
empty or references a live store entry; no two bins reference the same
entry; `_binsInUse` caches the number of occupied bins; stored keys are
pairwise distinct; and every store entry is located by the probe walk
for its key (claim C3's reachability, phrased through `findBinForKey`). -/
structure Inv (m : Map K V) : Prop where
  pow2 : ∃ k, m.binCount = 32 * 2 ^ k
  valid : m.bins.all (binOk m.pairs.length) = true
  nodupBins : (m.bins.filterMap id).Nodup
  inUse : m.binsInUse = countBins m
  nodupKeys : (m.pairs.map Prod.fst).Nodup
  finds : ∀ i < m.pairs.length,
    ((m.pairs[i]?).map Prod.fst).bind (fun k => (findBinForKey m k).bind m.binAt) = some i

theorem Inv.binCount_pos {m : Map K V} (h : Inv m) : 0 < m.binCount := by
  obtain ⟨k, hk⟩ := h.pow2
  have := Nat.two_pow_pos k
  omega

theorem Inv.min_bins_le {m : Map K V} (h : Inv m) : 32 ≤ m.binCount := by
  obtain ⟨k, hk⟩ := h.pow2
  have h1 : 0 < 2 ^ k := Nat.two_pow_pos k
  have h2 : 32 * 1 ≤ 32 * 2 ^ k := Nat.mul_le_mul_left 32 h1
  omega

theorem Inv.valid' {m : Map K V} (h : Inv m) {b v : Nat}
    (hb : m.binAt b = some v) : v < m.pairs.length := by
  have hmem : (some v : Option Nat) ∈ m.bins :=
    List.getElem?_mem (binAt_eq_some_iff.mp hb)
  have := (List.all_eq_true.mp h.valid) _ hmem
  simpa [binOk] using this

theorem Inv.inj {m : Map K V} (h : Inv m) {b b2 v : Nat}
    (hb : m.binAt b = some v) (hb2 : m.binAt b2 = some v) : b = b2 :=
  filterMap_id_nodup_inj m.bins h.nodupBins b b2 v
    (binAt_eq_some_iff.mp hb) (binAt_eq_some_iff.mp hb2)

theorem Inv.findsAt {m : Map K V} (h : Inv m) {i : Nat} (hi : i < m.pairs.length) :
    ∃ b p, m.pairs[i]? = some p ∧ findBinForKey m p.1 = some b ∧ m.binAt b = some i := by
  have hfind := h.finds i hi
  cases hp : m.pairs[i]? with
  | none => rw [hp] at hfind; simp at hfind
  | some p =>
    rw [hp] at hfind
    simp only [Option.map_some', Option.some_bind] at hfind
    cases hb : findBinForKey m p.1 with
    | none => rw [hb] at hfind; simp at hfind
    | some b =>
      rw [hb] at hfind
      simp only [Option.some_bind] at hfind
      exact ⟨b, p, rfl, hb, hfind⟩

theorem Inv.keyAt_inj {m : Map K V} (h : Inv m) {i j : Nat} {p q : K × V}
    (hi : m.pairs[i]? = some p) (hj : m.pairs[j]? = some q) (hk : p.1 = q.1) :
    i = j := by
  have h1 : (m.pairs.map Prod.fst)[i]? = some p.1 := by
    rw [List.getElem?_map, hi]; rfl
  have h2 : (m.pairs.map Prod.fst)[j]? = some q.1 := by
    rw [List.getElem?_map, hj]; rfl
  exact nodup_getElem?_inj _ h.nodupKeys i j p.1 h1 (hk ▸ h2)

theorem Inv.has_of_getElem {m : Map K V} (h : Inv m) {i : Nat} {p : K × V}
    (hp : m.pairs[i]? = some p) : m.has p.1 = true := by
  have hi : i < m.pairs.length := by
    obtain ⟨hlt, -⟩ := List.getElem?_eq_some_iff.mp hp
    exact hlt
  obtain ⟨b, q, hq, hfind, hbin⟩ := h.findsAt hi
  rw [hp] at hq
  cases hq
  unfold has
  rw [hfind]
  show (!m.isBinEmpty b) = true
  rw [show m.isBinEmpty b = false from by
    rw [isBinEmpty_eq_false_iff]; exact ⟨i, hbin⟩]
  rfl

theorem Inv.getElem_of_has {m : Map K V} (h : Inv m) {key : K}
    (hh : m.has key = true) :
    ∃ b idx p, findBinForKey m key = some b ∧ m.binAt b = some idx ∧
      m.pairs[idx]? = some p ∧ p.1 = key := by
  unfold has at hh
  cases hf : findBinForKey m key with
  | none => rw [hf] at hh; simp at hh
  | some b =>
    rw [hf] at hh
    have hh2 : (!m.isBinEmpty b) = true := hh
    have hne : m.isBinEmpty b = false := by simpa using hh2
    have hstop := (findBinForKey_spec m key b hf).2
    unfold stopBin at hstop
    rw [hne] at hstop
    simp only [Bool.false_or] at hstop
    obtain ⟨-, idx, p, hbin, hp, hkey⟩ := doesBinContain_eq_true_iff.mp hstop
    exact ⟨b, idx, p, rfl, hbin, hp, hkey⟩

theorem Inv.count_eq {m : Map K V} (h : Inv m) : countBins m = m.pairs.length := by
  rw [countBins, countP_isSome_eq_length_filterMap]
  have hsub : ∀ v ∈ m.bins.filterMap id, v < m.pairs.length := by
    intro v hv
    obtain ⟨o, ho, hov⟩ := List.mem_filterMap.mp hv
    have hov' : o = some v := hov
    subst hov'
    have := (List.all_eq_true.mp h.valid) _ ho
    simpa [binOk] using this
  have hmem : ∀ i < m.pairs.length, i ∈ m.bins.filterMap id := by
    intro i hi
    obtain ⟨b, p, _, _, hbin⟩ := h.findsAt hi
    exact List.mem_filterMap.mpr
      ⟨some i, List.getElem?_mem (binAt_eq_some_iff.mp hbin), rfl⟩
  have hfin : (m.bins.filterMap id).toFinset = Finset.range m.pairs.length := by
    ext v
    simp only [List.mem_toFinset, Finset.mem_range]
    exact ⟨fun hv => hsub v hv, fun hv => hmem v hv⟩
  calc (m.bins.filterMap id).length
      = (m.bins.filterMap id).toFinset.card :=
        (List.toFinset_card_of_nodup h.nodupBins).symm
    _ = (Finset.range m.pairs.length).card := by rw [hfin]
    _ = m.pairs.length := Finset.card_range _

/-! ## The two mutation shapes shared by `put` and `operator[]` -/

/-- Inserting a fresh entry through empty bin `b`: the bin takes the new
store index, the pair is appended, `binsInUse` is incremented (the common
body of `put` and `operator[]` on a missing key). -/
def insertAt (m : Map K V) (b : Nat) (key : K) (value : V) : Map K V :=
  { m with
    binsInUse := m.binsInUse + 1,
    bins := m.bins.set b (some m.pairs.length),
    pairs := m.pairs ++ [(key, value)] }

/-- Overwriting the store entry at `idx` in place (the `put` branch for a
present key). -/
def overwriteAt (m : Map K V) (idx : Nat) (key : K) (value : V) : Map K V :=
  { m with pairs := m.pairs.set idx (key, value) }

theorem put_eq_insert_of_empty {m : Map K V} {key : K} {value : V} {b : Nat}
    (hf : findBinForKey m key = some b) (he : m.isBinEmpty b = true) :
    put m key value = some (insertAt m b key value) := by
  unfold put insertAt
  rw [hf]
  simp [he]

theorem put_eq_overwrite {m : Map K V} {key : K} {value : V} {b idx : Nat}
    (hf : findBinForKey m key = some b) (hb : m.binAt b = some idx) :
    put m key value = some (overwriteAt m idx key value) := by
  unfold put overwriteAt
  have he : m.isBinEmpty b = false := isBinEmpty_eq_false_iff.mpr ⟨idx, hb⟩
  rw [hf]
  simp [he, hb]

theorem set_getElem?_eq_self {α : Type} (l : List α) (i : Nat) (a : α)
    (h : l[i]? = some a) : l.set i a = l := by
  apply List.ext_getElem?
  intro n
  by_cases hn : i = n
  · subst hn
    rw [List.getElem?_set_self', h]
    rfl
  · rw [List.getElem?_set_ne hn]

theorem filterMap_id_set_some_perm :
    ∀ (l : List (Option Nat)) (b v : Nat), l[b]? = some none →
      ((l.set b (some v)).filterMap id).Perm (v :: l.filterMap id) := by
  intro l
  induction l with
  | nil =>
    intro b v hb
    simp at hb
  | cons x t ih =>
    intro b v hb
    cases b with
    | zero =>
      simp only [List.getElem?_cons_zero, Option.some.injEq] at hb
      subst hb
      simp [List.set]
    | succ b =>
      simp only [List.getElem?_cons_succ] at hb
      rw [List.set_cons_succ]
      cases x with
      | none =>
        simpa using ih b v hb
      | some w =>
        have step := (ih b v hb).cons w
        refine step.trans ?_
        exact List.Perm.swap v w _

/-! ## Facts about the insertion state -/

theorem insertAt_binCount {m : Map K V} {b : Nat} {key : K} {value : V} :
    (insertAt m b key value).binCount = m.binCount := by
  simp [insertAt, binCount]

theorem insertAt_pairs_length {m : Map K V} {b : Nat} {key : K} {value : V} :
    (insertAt m b key value).pairs.length = m.pairs.length + 1 := by
  simp [insertAt]

theorem insertAt_binAt_ne {m : Map K V} {b : Nat} {key : K} {value : V}
    {c : Nat} (hc : c ≠ b) : (insertAt m b key value).binAt c = m.binAt c := by
  unfold insertAt binAt
  simp only
  rw [List.getElem?_set_ne (fun h => hc h.symm)]

theorem insertAt_binAt_self {m : Map K V} {b : Nat} {key : K} {value : V}
    (hb : b < m.binCount) :
    (insertAt m b key value).binAt b = some m.pairs.length := by
  unfold insertAt binAt
  simp only
  rw [List.getElem?_set_self (by exact hb)]
  rfl

theorem insertAt_pairs_lt {m : Map K V} {b : Nat} {key : K} {value : V}
    {j : Nat} (hj : j < m.pairs.length) :
    (insertAt m b key value).pairs[j]? = m.pairs[j]? := by
  unfold insertAt
  simp only
  rw [List.getElem?_append_left hj]

theorem insertAt_pairs_len {m : Map K V} {b : Nat} {key : K} {value : V} :
    (insertAt m b key value).pairs[m.pairs.length]? = some (key, value) := by
  unfold insertAt
  simp only
  exact List.getElem?_concat_length m.pairs (key, value)

theorem insertAt_stopBin_ne {m : Map K V} (h : Inv m) {b : Nat} {key : K}
    {value : V} {c : Nat} (hc : c ≠ b) (key2 : K) :
    stopBin (insertAt m b key value) key2 c = stopBin m key2 c := by
  have hbinAt : (insertAt m b key value).binAt c = m.binAt c := insertAt_binAt_ne hc
  unfold stopBin isBinEmpty
  rw [hbinAt]
  congr 1
  unfold doesBinContain isBinEmpty
  rw [hbinAt, insertAt_binCount]
  cases hcell : m.binAt c with
  | none => rfl
  | some j =>
    have hj : j < m.pairs.length := h.valid' hcell
    simp only [Option.some_bind]
    rw [insertAt_pairs_lt hj]

theorem insertAt_contains_self {m : Map K V} {b : Nat} {key : K} {value : V}
    (hb : b < m.binCount) :
    (insertAt m b key value).doesBinContain b key = true := by
  rw [doesBinContain_eq_true_iff]
  exact ⟨by rw [insertAt_binCount]; exact hb, m.pairs.length, (key, value),
    insertAt_binAt_self hb, insertAt_pairs_len, rfl⟩

theorem insertAt_stopBin_self {m : Map K V} {b : Nat} {key : K} {value : V}
    (hb : b < m.binCount) :
    stopBin (insertAt m b key value) key b = true := by
  unfold stopBin
  rw [insertAt_contains_self hb, Bool.or_true]

theorem has_eq_of_findBin {m : Map K V} {key : K} {b : Nat}
    (hf : findBinForKey m key = some b) : m.has key = !(m.isBinEmpty b) := by
  unfold has
  rw [hf]

theorem getConst_eq_of {m : Map K V} {key : K} {b idx : Nat} {p : K × V}
    (hf : findBinForKey m key = some b) (hb : m.binAt b = some idx)
    (hp : m.pairs[idx]? = some p) : getConst m key = some p.2 := by
  unfold getConst
  rw [hf]
  simp [hb, hp]

theorem Inv.not_mem_keys {m : Map K V} (h : Inv m) {key : K} {b : Nat}
    (hf : findBinForKey m key = some b) (he : m.isBinEmpty b = true) :
    key ∉ m.pairs.map Prod.fst := by
  intro hmem
  obtain ⟨i, hk⟩ := List.mem_iff_getElem?.mp hmem
  rw [List.getElem?_map] at hk
  cases hp : m.pairs[i]? with
  | none => rw [hp] at hk; simp at hk
  | some p =>
    rw [hp] at hk
    simp only [Option.map_some', Option.some.injEq] at hk
    have hhas := h.has_of_getElem hp
    rw [hk, has_eq_of_findBin hf, he] at hhas
    simp at hhas

theorem insertAt_findBin_preserve {m : Map K V} (h : Inv m) {b : Nat} {key : K}
    {value : V} (hcell : m.binAt b = none) {key2 : K} {b2 : Nat}
    (hf2 : findBinForKey m key2 = some b2)
    (hstop2 : stopBin (insertAt m b key value) key2 b2 = true) :
    findBinForKey (insertAt m b key value) key2 = some b2 := by
  apply findBinForKey_preserve m (insertAt m b key value) key2 b2 rfl insertAt_binCount _ hstop2 hf2
  intro c hclt hcns
  by_cases hcb : c = b
  · subst hcb
    unfold stopBin at hcns
    rw [isBinEmpty_eq_true_iff.mpr hcell] at hcns
    simp at hcns
  · rw [insertAt_stopBin_ne h hcb key2, hcns]

theorem insertAt_findBin_self {m : Map K V} (h : Inv m) {b : Nat} {key : K}
    {value : V} (hf : findBinForKey m key = some b) (he : m.isBinEmpty b = true) :
    findBinForKey (insertAt m b key value) key = some b := by
  have hb : b < m.binCount := (findBinForKey_spec m key b hf).1
  exact insertAt_findBin_preserve h (isBinEmpty_eq_true_iff.mp he) hf
    (insertAt_stopBin_self hb)

theorem getConst_insertAt {m : Map K V} (h : Inv m) {key : K} {value : V} {b : Nat}
    (hf : findBinForKey m key = some b) (he : m.isBinEmpty b = true) :
    getConst (insertAt m b key value) key = some value := by
  have hb : b < m.binCount := (findBinForKey_spec m key b hf).1
  exact getConst_eq_of (insertAt_findBin_self h hf he) (insertAt_binAt_self hb)
    insertAt_pairs_len

theorem inv_insertAt {m : Map K V} (h : Inv m) {key : K} {value : V} {b : Nat}
    (hf : findBinForKey m key = some b) (he : m.isBinEmpty b = true) :
    Inv (insertAt m b key value) := by
  have hcell : m.binAt b = none := isBinEmpty_eq_true_iff.mp he
  have hb : b < m.binCount := (findBinForKey_spec m key b hf).1
  have hbcell : m.bins[b]? = some none := by
    have hlt : b < m.bins.length := hb
    unfold binAt at hcell
    rw [List.getElem?_eq_getElem hlt] at hcell ⊢
    cases hcase : m.bins[b] with
    | none => rfl
    | some w => rw [hcase] at hcell; simp at hcell
  have hperm := filterMap_id_set_some_perm m.bins b m.pairs.length hbcell
  have hvallt : ∀ v ∈ m.bins.filterMap id, v < m.pairs.length := by
    intro v hv
    obtain ⟨o, ho, hov⟩ := List.mem_filterMap.mp hv
    have hov' : o = some v := hov
    subst hov'
    have := (List.all_eq_true.mp h.valid) _ ho
    simpa [binOk] using this
  constructor
  · rw [insertAt_binCount]
    exact h.pow2
  · rw [List.all_eq_true]
    intro x hx
    rw [insertAt_pairs_length]
    have hx2 : x ∈ m.bins.set b (some m.pairs.length) := hx
    rcases List.mem_or_eq_of_mem_set hx2 with hold | hnew
    · have := (List.all_eq_true.mp h.valid) _ hold
      cases x with
      | none => rfl
      | some v =>
        simp only [binOk, decide_eq_true_eq] at this ⊢
        omega
    · subst hnew
      simp [binOk]
  · refine hperm.nodup_iff.mpr ?_
    refine List.nodup_cons.mpr ⟨?_, h.nodupBins⟩
    intro hmem
    exact absurd (hvallt _ hmem) (by omega)
  · show m.binsInUse + 1 = countBins (insertAt m b key value)
    have hcnt : countBins (insertAt m b key value) =
        ((m.bins.set b (some m.pairs.length)).filterMap id).length := by
      exact countP_isSome_eq_length_filterMap _
    rw [hcnt, hperm.length_eq]
    simp only [List.length_cons]
    rw [← countP_isSome_eq_length_filterMap]
    have hiu := h.inUse
    unfold countBins at hiu
    omega
  · show ((m.pairs ++ [(key, value)]).map Prod.fst).Nodup
    rw [List.map_append]
    refine List.Nodup.append h.nodupKeys (by simp) ?_
    intro a ha hb2
    simp only [List.map_cons, List.map_nil, List.mem_singleton] at hb2
    subst hb2
    exact h.not_mem_keys hf he ha
  · intro i hi
    rw [insertAt_pairs_length] at hi
    by_cases hilt : i < m.pairs.length
    · obtain ⟨b2, p, hp, hf2, hbin2⟩ := h.findsAt hilt
      have hb2ne : b2 ≠ b := fun hEq => by rw [hEq, hcell] at hbin2; cases hbin2
      have hstop2 : stopBin (insertAt m b key value) p.1 b2 = true := by
        rw [insertAt_stopBin_ne h hb2ne]
        exact (findBinForKey_spec m p.1 b2 hf2).2
      rw [insertAt_pairs_lt hilt, hp]
      simp only [Option.map_some', Option.some_bind]
      rw [insertAt_findBin_preserve h hcell hf2 hstop2]
      simp only [Option.some_bind]
      rw [insertAt_binAt_ne hb2ne]
      exact hbin2
    · have hieq : i = m.pairs.length := by omega
      subst hieq
      rw [insertAt_pairs_len]
      simp only [Option.map_some', Option.some_bind]
      rw [insertAt_findBin_self h hf he]
      simp only [Option.some_bind]
      rw [insertAt_binAt_self hb]

/-! ## Facts about the overwrite state -/

theorem overwriteAt_findBin {m : Map K V} (h : Inv m) {idx : Nat} {key : K}
    {value : V} {b : Nat} {p : K × V}
    (hbin : m.binAt b = some idx) (hp : m.pairs[idx]? = some p) (hkey : p.1 = key)
    (key2 : K) :
    findBinForKey (overwriteAt m idx key value) key2 = findBinForKey m key2 := by
  apply findBinForKey_congr m (overwriteAt m idx key value) key2 rfl rfl
  intro c hclt
  unfold stopBin isBinEmpty
  have hbinAt : (overwriteAt m idx key value).binAt c = m.binAt c := rfl
  rw [hbinAt]
  congr 1
  unfold doesBinContain isBinEmpty
  rw [hbinAt]
  have hbc : (overwriteAt m idx key value).binCount = m.binCount := rfl
  rw [hbc]
  cases hcell : m.binAt c with
  | none => rfl
  | some j =>
    simp only [Option.some_bind]
    by_cases hj : j = idx
    · subst hj
      have hidxlt : j < m.pairs.length := (List.getElem?_eq_some_iff.mp hp).1
      have hpairs : (overwriteAt m j key value).pairs[j]? = some (key, value) := by
        unfold overwriteAt
        simp only
        rw [List.getElem?_set_self hidxlt]
      rw [hpairs, hp]
      simp [hkey]
    · have hpairs : (overwriteAt m idx key value).pairs[j]? = m.pairs[j]? := by
        unfold overwriteAt
        simp only
        rw [List.getElem?_set_ne (fun hEq => hj hEq.symm)]
      rw [hpairs]

theorem getConst_overwriteAt {m : Map K V} (h : Inv m) {key : K} {value : V}
    {b idx : Nat} {p : K × V}
    (hf : findBinForKey m key = some b) (hbin : m.binAt b = some idx)
    (hp : m.pairs[idx]? = some p) (hkey : p.1 = key) :
    getConst (overwriteAt m idx key value) key = some value := by
  have hidxlt : idx < m.pairs.length := (List.getElem?_eq_some_iff.mp hp).1
  have hf2 : findBinForKey (overwriteAt m idx key value) key = some b := by
    rw [overwriteAt_findBin h hbin hp hkey key]
    exact hf
  have hbin2 : (overwriteAt m idx key value).binAt b = some idx := hbin
  have hp2 : (overwriteAt m idx key value).pairs[idx]? = some (key, value) := by
    unfold overwriteAt
    simp only
    rw [List.getElem?_set_self hidxlt]
  exact getConst_eq_of hf2 hbin2 hp2

theorem inv_overwriteAt {m : Map K V} (h : Inv m) {key : K} {value : V}
    {b idx : Nat} {p : K × V}
    (hbin : m.binAt b = some idx) (hp : m.pairs[idx]? = some p) (hkey : p.1 = key) :
    Inv (overwriteAt m idx key value) := by
  have hidxlt : idx < m.pairs.length := (List.getElem?_eq_some_iff.mp hp).1
  have hlen : (overwriteAt m idx key value).pairs.length = m.pairs.length := by
    unfold overwriteAt
    simp
  have hkeys : (overwriteAt m idx key value).pairs.map Prod.fst = m.pairs.map Prod.fst := by
    unfold overwriteAt
    simp only [List.map_set]
    apply set_getElem?_eq_self
    rw [List.getElem?_map, hp]
    simp [hkey]
  constructor
  · exact h.pow2
  · rw [show (overwriteAt m idx key value).bins = m.bins from rfl, hlen]
    exact h.valid
  · exact h.nodupBins
  · exact h.inUse
  · rw [hkeys]
    exact h.nodupKeys
  · intro i hi
    rw [hlen] at hi
    obtain ⟨b2, q, hq, hf2, hbin2⟩ := h.findsAt hi
    have hchain : ((overwriteAt m idx key value).pairs[i]?).map Prod.fst =
        (m.pairs[i]?).map Prod.fst := by
      have h1 : ((overwriteAt m idx key value).pairs.map Prod.fst)[i]? =
          ((m.pairs.map Prod.fst))[i]? := by rw [hkeys]
      rw [List.getElem?_map, List.getElem?_map] at h1
      exact h1
    rw [hchain, hq]
    simp only [Option.map_some', Option.some_bind]
    rw [overwriteAt_findBin h hbin hp hkey q.1, hf2]
    simp only [Option.some_bind]
    exact hbin2

/-! ## The rehash performed by `resize` -/

theorem cell_eq_some_none {m : Map K V} {b : Nat} (hb : b < m.binCount)
    (he : m.isBinEmpty b = true) : m.bins[b]? = some none := by
  have hcell := isBinEmpty_eq_true_iff.mp he
  unfold binAt at hcell
  have hlt : b < m.bins.length := hb
  rw [List.getElem?_eq_getElem hlt] at hcell ⊢
  cases hcase : m.bins[b] with
  | none => rfl
  | some w => rw [hcase] at hcell; simp at hcell

theorem setBin_binAt_ne {mm : Map K V} {b : Nat} {o : Option Nat} {c : Nat}
    (hc : c ≠ b) : binAt { mm with bins := mm.bins.set b o } c = mm.binAt c := by
  unfold binAt
  simp only
  rw [List.getElem?_set_ne (fun h => hc h.symm)]

theorem setBin_binAt_self {mm : Map K V} {b : Nat} {o : Option Nat}
    (hb : b < mm.binCount) :
    binAt { mm with bins := mm.bins.set b o } b = o := by
  unfold binAt
  simp only
  rw [List.getElem?_set_self (by exact hb)]
  cases o <;> rfl

theorem setBin_stopBin_ne {mm : Map K V} {b : Nat} {o : Option Nat} {c : Nat}
    (hc : c ≠ b) (key2 : K) :
    stopBin { mm with bins := mm.bins.set b o } key2 c = stopBin mm key2 c := by
  have hbinAt : binAt { mm with bins := mm.bins.set b o } c = mm.binAt c :=
    setBin_binAt_ne hc
  have hbc : ({ mm with bins := mm.bins.set b o } : Map K V).binCount = mm.binCount := by
    simp [binCount]
  unfold stopBin isBinEmpty
  rw [hbinAt]
  congr 1
  unfold doesBinContain isBinEmpty
  rw [hbinAt, hbc]

theorem setBin_findBin_preserve {mm : Map K V} {b : Nat} {o : Option Nat}
    (hbe : mm.isBinEmpty b = true) {key2 : K} {b2 : Nat}
    (hf2 : findBinForKey mm key2 = some b2)
    (hstop2 : stopBin { mm with bins := mm.bins.set b o } key2 b2 = true) :
    findBinForKey { mm with bins := mm.bins.set b o } key2 = some b2 := by
  apply findBinForKey_preserve mm { mm with bins := mm.bins.set b o } key2 b2 rfl
    (by simp [binCount]) _ hstop2 hf2
  intro c hclt hcns
  by_cases hcb : c = b
  · subst hcb
    unfold stopBin at hcns
    rw [hbe] at hcns
    simp at hcns
  · rw [setBin_stopBin_ne hcb key2, hcns]

theorem exists_empty_bin {m : Map K V} (hcnt : countBins m + 2 ≤ m.binCount) :
    ∃ j, 1 ≤ j ∧ j < m.binCount ∧ m.isBinEmpty j = true := by
  by_contra hno
  push_neg at hno
  have hbc : m.binCount = m.bins.length := rfl
  have htail : ∀ x ∈ m.bins.drop 1, x.isSome = true := by
    intro x hx
    obtain ⟨j, hj⟩ := List.mem_iff_getElem?.mp hx
    have hjlt : j < m.bins.length - 1 := by
      have := (List.getElem?_eq_some_iff.mp hj).1
      rwa [List.length_drop] at this
    rw [List.getElem?_drop] at hj
    have hne := hno (1 + j) (by omega) (by omega)
    have hne2 : m.isBinEmpty (1 + j) = false := Bool.eq_false_iff.mpr hne
    rw [isBinEmpty_eq_false_iff] at hne2
    obtain ⟨idx, hidx⟩ := hne2
    rw [binAt_eq_some_iff, hj] at hidx
    cases hidx
    rfl
  have hcount : (m.bins.drop 1).countP (fun b => b.isSome) ≤
      m.bins.countP (fun b => b.isSome) := by
    conv_rhs => rw [← List.take_append_drop 1 m.bins]
    rw [List.countP_append]
    omega
  rw [List.countP_eq_length.mpr htail, List.length_drop] at hcount
  unfold countBins at hcnt
  omega

theorem chain_eq_some_iff {m : Map K V} {P : List (K × V)} {j : Nat} :
    ((P[j]?).map Prod.fst).bind (fun k => (findBinForKey m k).bind m.binAt) = some j ↔
      ∃ q b2, P[j]? = some q ∧ findBinForKey m q.1 = some b2 ∧ m.binAt b2 = some j := by
  cases hq : P[j]? with
  | none => simp
  | some q =>
    simp only [Option.map_some', Option.some_bind, Option.some.injEq]
    cases hf : findBinForKey m q.1 with
    | none => simp [hf]
    | some b2 =>
      simp only [Option.some_bind]
      constructor
      · intro hbin
        exact ⟨q, b2, rfl, hf, hbin⟩
      · rintro ⟨q2, b3, hq2, hf2, hbin2⟩
        cases hq2
        rw [hf] at hf2
        cases hf2
        exact hbin2

/-- Loop invariant of the rehash inside `resize`: after the entries
`0 .. i-1` have been reinserted, the bin table holds exactly those store
indices, each reachable by the probe walk of its key. -/
structure RehashInv (P : List (K × V)) (hf : K → Nat) (n i : Nat)
    (mm : Map K V) : Prop where
  pairsEq : mm.pairs = P
  hashEq : mm.hashFunc = hf
  bcEq : mm.binCount = n
  vals : ∀ b v, mm.binAt b = some v → v < i
  nodupBins : (mm.bins.filterMap id).Nodup
  count : countBins mm = i
  finds : ∀ j < i, ((P[j]?).map Prod.fst).bind
    (fun k => (findBinForKey mm k).bind mm.binAt) = some j

theorem rehash_step {P : List (K × V)} {hfn : K → Nat} {n i : Nat} {mm : Map K V}
    (hin : RehashInv P hfn n i mm) (hkeys : (P.map Prod.fst).Nodup)
    (hroom : P.length + 2 ≤ n) {p : K × V} (hp : P[i]? = some p)
    (hi : i < P.length) :
    ∃ b, findBinForKey mm p.1 = some b ∧ mm.isBinEmpty b = true ∧
      RehashInv P hfn n (i + 1) { mm with bins := mm.bins.set b (some i) } := by
  have hnocontain : ∀ c, mm.doesBinContain c p.1 = false := by
    intro c
    cases hdc : mm.doesBinContain c p.1
    · rfl
    · exfalso
      obtain ⟨-, j, q, hbin, hq, hqk⟩ := doesBinContain_eq_true_iff.mp hdc
      have hj : j < i := hin.vals c j hbin
      rw [hin.pairsEq] at hq
      have hji : j = i := by
        refine nodup_getElem?_inj _ hkeys j i p.1 ?_ ?_
        · rw [List.getElem?_map, hq]
          simp [hqk]
        · rw [List.getElem?_map, hp]
          rfl
      omega
  obtain ⟨j0, hj1, hj2, hj3⟩ := exists_empty_bin
    (show countBins mm + 2 ≤ mm.binCount from by rw [hin.count, hin.bcEq]; omega)
  obtain ⟨b, hfb⟩ := findBinForKey_isSome mm p.1 j0 hj1 hj2
    (by unfold stopBin; rw [hj3, Bool.true_or])
  have hspec := findBinForKey_spec mm p.1 b hfb
  have hemp : mm.isBinEmpty b = true := by
    have hst := hspec.2
    unfold stopBin at hst
    rw [hnocontain b, Bool.or_false] at hst
    exact hst
  have hcell : mm.bins[b]? = some none := cell_eq_some_none hspec.1 hemp
  have hperm := filterMap_id_set_some_perm mm.bins b i hcell
  refine ⟨b, hfb, hemp, ?_⟩
  constructor
  · rw [show ({ mm with bins := mm.bins.set b (some i) } : Map K V).pairs =
      mm.pairs from rfl, hin.pairsEq]
  · exact hin.hashEq
  · show (mm.bins.set b (some i)).length = n
    rw [List.length_set]
    exact hin.bcEq
  · intro c v hc
    by_cases hcb : c = b
    · subst hcb
      rw [setBin_binAt_self hspec.1] at hc
      cases hc
      omega
    · rw [setBin_binAt_ne hcb] at hc
      have := hin.vals c v hc
      omega
  · show ((mm.bins.set b (some i)).filterMap id).Nodup
    refine hperm.nodup_iff.mpr (List.nodup_cons.mpr ⟨?_, hin.nodupBins⟩)
    intro hmem
    obtain ⟨o, ho, hoi⟩ := List.mem_filterMap.mp hmem
    have hoi' : o = some i := hoi
    subst hoi'
    obtain ⟨c, hc⟩ := List.mem_iff_getElem?.mp ho
    have : i < i := hin.vals c i (binAt_eq_some_iff.mpr hc)
    omega
  · show countBins { mm with bins := mm.bins.set b (some i) } = i + 1
    have h1 : countBins { mm with bins := mm.bins.set b (some i) } =
        ((mm.bins.set b (some i)).filterMap id).length :=
      countP_isSome_eq_length_filterMap _
    rw [h1, hperm.length_eq]
    simp only [List.length_cons]
    rw [← countP_isSome_eq_length_filterMap]
    have := hin.count
    unfold countBins at this
    omega
  · intro j hj
    rw [chain_eq_some_iff]
    by_cases hji : j < i
    · obtain ⟨q, b2, hq, hf2, hbin2⟩ := chain_eq_some_iff.mp (hin.finds j hji)
      have hb2ne : b2 ≠ b := by
        intro hEq
        rw [hEq, isBinEmpty_eq_true_iff.mp hemp] at hbin2
        cases hbin2
      refine ⟨q, b2, hq, ?_, ?_⟩
      · refine setBin_findBin_preserve hemp hf2 ?_
        rw [setBin_stopBin_ne hb2ne]
        exact (findBinForKey_spec mm q.1 b2 hf2).2
      · rw [setBin_binAt_ne hb2ne]
        exact hbin2
    · have hji2 : j = i := by omega
      subst hji2
      refine ⟨p, b, hp, ?_, setBin_binAt_self hspec.1⟩
      refine setBin_findBin_preserve hemp hfb ?_
      unfold stopBin
      have hcontain : ({ mm with bins := mm.bins.set b (some j) } : Map K V).doesBinContain b p.1 = true := by
        rw [doesBinContain_eq_true_iff]
        refine ⟨?_, j, p, setBin_binAt_self hspec.1, ?_, rfl⟩
        · show b < (mm.bins.set b (some j)).length
          rw [List.length_set]
          exact hspec.1
        · show mm.pairs[j]? = some p
          rw [hin.pairsEq]
          exact hp
      rw [hcontain, Bool.or_true]

theorem rehashGo_spec {P : List (K × V)} {hfn : K → Nat} {n : Nat}
    (hkeys : (P.map Prod.fst).Nodup) (hroom : P.length + 2 ≤ n) :
    ∀ (fuel i : Nat) (mm : Map K V), RehashInv P hfn n i mm → fuel + i = P.length →
      ∃ m2, rehashGo fuel mm i = some m2 ∧ RehashInv P hfn n P.length m2 ∧
        m2.binsInUse = mm.binsInUse := by
  intro fuel
  induction fuel with
  | zero =>
    intro i mm hin hfi
    have hieq : i = P.length := by omega
    subst hieq
    exact ⟨mm, rfl, hin, rfl⟩
  | succ fuel ih =>
    intro i mm hin hfi
    have hi : i < P.length := by omega
    obtain ⟨p, hp⟩ : ∃ p, P[i]? = some p := by
      rw [List.getElem?_eq_getElem hi]
      exact ⟨P[i], rfl⟩
    obtain ⟨b, hfb, hemp, hin2⟩ := rehash_step hin hkeys hroom hp hi
    have hmp : mm.pairs[i]? = some p := by rw [hin.pairsEq]; exact hp
    have step : rehashGo (fuel + 1) mm i =
        rehashGo fuel { mm with bins := mm.bins.set b (some i) } (i + 1) := by
      simp only [rehashGo, hmp, hfb]
    rw [step]
    obtain ⟨m2, hgo, hin3, hbiu⟩ := ih (i + 1) _ hin2 (by omega)
    exact ⟨m2, hgo, hin3, hbiu⟩

theorem filterMap_id_replicate_none (n : Nat) :
    (List.replicate n (none : Option Nat)).filterMap id = [] := by
  induction n with
  | zero => rfl
  | succ n ih => simp [List.replicate_succ, ih]

theorem resize_spec {m : Map K V} (hkeys : (m.pairs.map Prod.fst).Nodup)
    {n : Nat} (hroom : m.pairs.length + 2 ≤ n) :
    ∃ m2, resize m n = some m2 ∧
      RehashInv m.pairs m.hashFunc n m.pairs.length m2 ∧
      m2.binsInUse = m.binsInUse := by
  have hin0 : RehashInv m.pairs m.hashFunc n 0
      { m with bins := List.replicate n none } := by
    constructor
    · rfl
    · rfl
    · show (List.replicate n none).length = n
      simp
    · intro b v hb
      rw [binAt_eq_some_iff] at hb
      have hb2 : (List.replicate n (none : Option Nat))[b]? = some (some v) := hb
      rw [List.getElem?_replicate] at hb2
      by_cases hbn : b < n
      · rw [if_pos hbn] at hb2
        simp at hb2
      · rw [if_neg hbn] at hb2
        cases hb2
    · show ((List.replicate n (none : Option Nat)).filterMap id).Nodup
      rw [filterMap_id_replicate_none]
      exact List.nodup_nil
    · show (List.replicate n (none : Option Nat)).countP (fun b => b.isSome) = 0
      rw [countP_isSome_eq_length_filterMap, filterMap_id_replicate_none]
      rfl
    · intro j hj
      omega
  obtain ⟨m2, hgo, hin, hbiu⟩ :=
    rehashGo_spec hkeys hroom m.pairs.length 0 _ hin0 (by omega)
  exact ⟨m2, hgo, hin, hbiu⟩

theorem inv_resize {m : Map K V} (h : Inv m) {n : Nat}
    (hn : ∃ k, n = 32 * 2 ^ k) (hroom : m.pairs.length + 2 ≤ n) :
    ∃ m2, resize m n = some m2 ∧ Inv m2 ∧ m2.pairs = m.pairs ∧
      m2.binCount = n ∧ m2.binsInUse = m.binsInUse := by
  obtain ⟨m2, hres, hin, hbiu⟩ := resize_spec h.nodupKeys hroom
  refine ⟨m2, hres, ?_, hin.pairsEq, hin.bcEq, hbiu⟩
  constructor
  · rw [hin.bcEq]
    exact hn
  · rw [List.all_eq_true]
    intro x hx
    cases x with
    | none => rfl
    | some v =>
      obtain ⟨b, hb⟩ := List.mem_iff_getElem?.mp hx
      have hv := hin.vals b v (binAt_eq_some_iff.mpr hb)
      simp only [binOk, decide_eq_true_eq]
      rw [hin.pairsEq]
      exact hv
  · exact hin.nodupBins
  · rw [hbiu, h.inUse, h.count_eq, hin.count]
  · rw [hin.pairsEq]
    exact h.nodupKeys
  · intro i hi
    have hi2 : i < m.pairs.length := by rw [hin.pairsEq] at hi; exact hi
    have hch := hin.finds i hi2
    rw [hin.pairsEq]
    exact hch

theorem inv_grow {m : Map K V} (h : Inv m) :
    ∃ m2, grow m = some m2 ∧ Inv m2 ∧ m2.pairs = m.pairs ∧
      m2.binCount = 2 * m.binCount ∧ m2.binsInUse = m.binsInUse := by
  have hsh : m.binCount <<< 1 = 2 * m.binCount := by
    rw [Nat.shiftLeft_eq, pow_one]
    omega
  have hroom : m.pairs.length + 2 ≤ m.binCount <<< 1 := by
    have hlen : m.pairs.length = countBins m := h.count_eq.symm
    have hle : countBins m ≤ m.bins.length := List.countP_le_length _
    have hbc : m.bins.length = m.binCount := rfl
    have h32 := h.min_bins_le
    omega
  obtain ⟨k, hk⟩ := h.pow2
  obtain ⟨m2, hres, hinv, hp, hbc, hbiu⟩ := inv_resize h
    ⟨k + 1, by rw [hsh, hk]; ring⟩ hroom
  exact ⟨m2, hres, hinv, hp, by rw [hbc, hsh], hbiu⟩

theorem inv_shrink {m : Map K V} (h : Inv m) (hs : m.shouldShrink = true) :
    ∃ m2, shrink m = some m2 ∧ Inv m2 ∧ m2.pairs = m.pairs ∧
      m2.binCount = m.binCount / 2 ∧ m2.binsInUse = m.binsInUse := by
  have hsh : m.binCount >>> 1 = m.binCount / 2 := by
    rw [Nat.shiftRight_eq_div_pow]
  unfold shouldShrink at hs
  rw [Bool.and_eq_true, decide_eq_true_eq, decide_eq_true_eq] at hs
  have h30 : SHRINK_THRESHOLD = 30 := rfl
  have h32 : MIN_BINS = 32 := rfl
  rw [h30, h32] at hs
  obtain ⟨hload, hgt⟩ := hs
  obtain ⟨k, hk⟩ := h.pow2
  have hk1 : 1 ≤ k := by
    by_contra hk0
    push_neg at hk0
    have hkz : k = 0 := by omega
    subst hkz
    simp at hk
    omega
  obtain ⟨k2, rfl⟩ : ∃ k2, k = k2 + 1 := ⟨k - 1, by omega⟩
  have hbc64 : m.binCount = 64 * 2 ^ k2 := by rw [hk]; ring
  have hge64 : 64 ≤ m.binCount := by
    rw [hbc64]
    have := Nat.two_pow_pos k2
    calc (64 : Nat) = 64 * 1 := by omega
      _ ≤ 64 * 2 ^ k2 := Nat.mul_le_mul_left 64 this
  have hdiv : m.binCount / 2 = 32 * 2 ^ k2 := by
    rw [hbc64, show (64 : Nat) * 2 ^ k2 = 2 * (32 * 2 ^ k2) by ring]
    exact Nat.mul_div_cancel_left _ (by norm_num)
  have hload2 : m.binsInUse * 100 < 31 * m.binCount := by
    have hpos : 0 < m.binCount := h.binCount_pos
    have := (Nat.div_lt_iff_lt_mul hpos).mp (show m.binsInUse * 100 / m.binCount < 31 by omega)
    omega
  have hroom : m.pairs.length + 2 ≤ m.binCount >>> 1 := by
    have hlen : m.pairs.length = countBins m := h.count_eq.symm
    have hiu : m.binsInUse = countBins m := h.inUse
    rw [hsh]
    omega
  obtain ⟨m2, hres, hinv, hp, hbc, hbiu⟩ := inv_resize h
    ⟨k2, by rw [hsh, hdiv]⟩ hroom
  exact ⟨m2, hres, hinv, hp, by rw [hbc, hsh], hbiu⟩

/-! ## Membership characterisations -/

theorem findBin_empty_of_not_mem {m : Map K V} {key : K}
    (hkey : key ∉ m.pairs.map Prod.fst) {b : Nat}
    (hf : findBinForKey m key = some b) : m.isBinEmpty b = true := by
  have hstop := (findBinForKey_spec m key b hf).2
  unfold stopBin at hstop
  cases he : m.isBinEmpty b
  · rw [he] at hstop
    simp only [Bool.false_or] at hstop
    obtain ⟨-, idx, p, hbin, hp, hpk⟩ := doesBinContain_eq_true_iff.mp hstop
    exact absurd (List.mem_map.mpr ⟨p, List.getElem?_mem hp, hpk⟩) hkey
  · rfl

theorem Inv.has_iff_mem_keys {m : Map K V} (h : Inv m) {key : K} :
    m.has key = true ↔ key ∈ m.pairs.map Prod.fst := by
  constructor
  · intro hh
    obtain ⟨b, idx, p, hf, hbin, hp, hpk⟩ := h.getElem_of_has hh
    exact List.mem_map.mpr ⟨p, List.getElem?_mem hp, hpk⟩
  · intro hmem
    obtain ⟨i, hk⟩ := List.mem_iff_getElem?.mp hmem
    rw [List.getElem?_map] at hk
    cases hp : m.pairs[i]? with
    | none => rw [hp] at hk; simp at hk
    | some p =>
      rw [hp] at hk
      simp only [Option.map_some', Option.some.injEq] at hk
      rw [← hk]
      exact h.has_of_getElem hp

theorem Inv.getConst_of_getElem {m : Map K V} (h : Inv m) {i : Nat} {p : K × V}
    (hp : m.pairs[i]? = some p) : getConst m p.1 = some p.2 := by
  have hhas := h.has_of_getElem hp
  obtain ⟨b, idx, q, hf, hbin, hq, hqk⟩ := h.getElem_of_has hhas
  have hidx : idx = i := h.keyAt_inj hq hp hqk
  subst hidx
  rw [hp] at hq
  cases hq
  exact getConst_eq_of hf hbin hp

/-! ## Analysis of `remove` -/

theorem getElem?_eraseIdx' {α : Type} :
    ∀ (l : List α) (i j : Nat),
      (l.eraseIdx i)[j]? = if j < i then l[j]? else l[j + 1]? := by
  intro l
  induction l with
  | nil =>
    intro i j
    cases hij : decide (j < i) <;> simp [List.eraseIdx]
  | cons x t ih =>
    intro i j
    cases i with
    | zero =>
      simp [List.eraseIdx]
    | succ i =>
      cases j with
      | zero =>
        simp [List.eraseIdx]
      | succ j =>
        simp only [List.eraseIdx_cons_succ, List.getElem?_cons_succ]
        rw [ih i j]
        by_cases hji : j < i
        · rw [if_pos hji, if_pos (by omega)]
        · rw [if_neg hji, if_neg (by omega)]

theorem scanBins_eq_some_mem {m : Map K V} {key : K} :
    ∀ {l : List Nat} {b : Nat}, scanBins m key l = some b → b ∈ l := by
  intro l
  induction l with
  | nil => intro b h; simp [scanBins] at h
  | cons c rest ih =>
    intro b h
    rw [scanBins_cons] at h
    by_cases hc : c < m.binCount
    · rw [if_pos hc] at h
      by_cases hs : stopBin m key c = true
      · rw [if_pos hs] at h
        cases h
        exact List.mem_cons_self c rest
      · rw [if_neg hs] at h
        exact List.mem_cons_of_mem c (ih h)
    · rw [if_neg hc] at h
      cases h

theorem findBinForKey_head_or_pos {m : Map K V} {key : K} {b : Nat}
    (hf : findBinForKey m key = some b) :
    b = m.wrap (m.hash key) ∨ 1 ≤ b := by
  rw [findBinForKey_eq_scanBins] at hf
  rcases List.mem_cons.mp (scanBins_eq_some_mem hf) with hw | ht
  · exact Or.inl hw
  · obtain ⟨i, hi, rfl⟩ := List.mem_range'.mp ht
    omega

theorem findBinForKey_isSome_of_stop {m : Map K V} {key : K} {b : Nat}
    (hb : b < m.binCount) (hstop : stopBin m key b = true)
    (hbpos : b = m.wrap (m.hash key) ∨ 1 ≤ b) :
    ∃ b2, findBinForKey m key = some b2 := by
  rcases hbpos with heq | hge
  · refine ⟨b, ?_⟩
    rw [findBinForKey_eq_scanBins, ← heq, scanBins_cons, if_pos hb, if_pos hstop]
  · exact findBinForKey_isSome m key b hge hb hstop

theorem removeState_binCount {m1 : Map K V} {b idx : Nat} :
    (removeState m1 b idx).binCount = m1.binCount := by
  unfold removeState binCount
  simp

theorem removeState_binAt_ne {m1 : Map K V} {b idx c : Nat} (hc : c ≠ b) :
    (removeState m1 b idx).binAt c = fixupBin idx (m1.binAt c) := by
  unfold removeState binAt
  simp only
  rw [List.getElem?_set_ne (fun h => hc h.symm), List.getElem?_map]
  cases m1.bins[c]? with
  | none => rfl
  | some o => cases o <;> rfl

theorem removeState_binAt_self {m1 : Map K V} {b idx : Nat} (hb : b < m1.binCount) :
    (removeState m1 b idx).binAt b = none := by
  unfold removeState binAt
  simp only
  rw [List.getElem?_set_self (by rw [List.length_map]; exact hb)]
  rfl

theorem inv_preShrink {m : Map K V} (h : Inv m) :
    ∃ m1, (if m.shouldShrink then m.shrink else some m) = some m1 ∧ Inv m1 ∧
      m1.pairs = m.pairs ∧ m1.binsInUse = m.binsInUse ∧
      ((m.shouldShrink = true ∧ m1.binCount = m.binCount / 2) ∨
       (m.shouldShrink = false ∧ m1 = m)) := by
  cases hs : m.shouldShrink
  · exact ⟨m, by simp, h, rfl, rfl, Or.inr ⟨rfl, rfl⟩⟩
  · obtain ⟨m2, hres, hinv, hp, hbc, hbiu⟩ := inv_shrink h hs
    exact ⟨m2, by simp [hres], hinv, hp, hbiu, Or.inl ⟨rfl, hbc⟩⟩

theorem remove_eq_of_hit {m : Map K V} {key : K} {m1 : Map K V} {b idx : Nat}
    (hpre : (if m.shouldShrink then m.shrink else some m) = some m1)
    (hf : findBinForKey m1 key = some b) (hbin : m1.binAt b = some idx) :
    remove m key = some (removeState m1 b idx) := by
  have he : m1.isBinEmpty b = false := isBinEmpty_eq_false_iff.mpr ⟨idx, hbin⟩
  unfold remove
  rw [hpre]
  simp [hf, he, hbin]

theorem remove_eq_of_miss {m : Map K V} {key : K} {m1 : Map K V} {b : Nat}
    (hpre : (if m.shouldShrink then m.shrink else some m) = some m1)
    (hf : findBinForKey m1 key = some b) (he : m1.isBinEmpty b = true) :
    remove m key = some m1 := by
  unfold remove
  rw [hpre]
  simp [hf, he]

theorem removeState_not_mem_keys {m1 : Map K V} (h1 : Inv m1) {key : K}
    {b idx : Nat} {p : K × V}
    (hp : m1.pairs[idx]? = some p) (hpk : p.1 = key) :
    key ∉ (removeState m1 b idx).pairs.map Prod.fst := by
  intro hmem
  obtain ⟨q, hqmem, hqk⟩ := List.mem_map.mp hmem
  obtain ⟨j, hj⟩ := List.mem_iff_getElem?.mp hqmem
  have hj2 : (m1.pairs.eraseIdx idx)[j]? = some q := hj
  rw [getElem?_eraseIdx'] at hj2
  by_cases hlt : j < idx
  · rw [if_pos hlt] at hj2
    have := h1.keyAt_inj hj2 hp (by rw [hqk, hpk])
    omega
  · rw [if_neg hlt] at hj2
    have := h1.keyAt_inj hj2 hp (by rw [hqk, hpk])
    omega

theorem remove_hit_spec {m1 : Map K V} (h1 : Inv m1) {key : K} {b idx : Nat}
    {p : K × V}
    (hf : findBinForKey m1 key = some b) (hbin : m1.binAt b = some idx)
    (hp : m1.pairs[idx]? = some p) (hpk : p.1 = key) :
    (removeState m1 b idx).pairs.length + 1 = m1.pairs.length ∧
    has (removeState m1 b idx) key = false ∧
    (removeState m1 b idx).binsInUse + 1 = m1.binsInUse := by
  have hidxlt : idx < m1.pairs.length := (List.getElem?_eq_some_iff.mp hp).1
  have hblt : b < m1.binCount := (findBinForKey_spec m1 key b hf).1
  have hlen : (removeState m1 b idx).pairs.length + 1 = m1.pairs.length := by
    show (m1.pairs.eraseIdx idx).length + 1 = m1.pairs.length
    rw [List.length_eraseIdx_of_lt hidxlt]
    omega
  have hnotmem : key ∉ (removeState m1 b idx).pairs.map Prod.fst :=
    removeState_not_mem_keys h1 hp hpk
  have hbiu : (removeState m1 b idx).binsInUse + 1 = m1.binsInUse := by
    show m1.binsInUse - 1 + 1 = m1.binsInUse
    have := h1.inUse
    have := h1.count_eq
    omega
  refine ⟨hlen, ?_, hbiu⟩
  have hstop : stopBin (removeState m1 b idx) key b = true := by
    unfold stopBin
    rw [isBinEmpty_eq_true_iff.mpr (removeState_binAt_self hblt), Bool.true_or]
  have hwrapEq : (removeState m1 b idx).wrap ((removeState m1 b idx).hash key) =
      m1.wrap (m1.hash key) := by
    unfold wrap hash
    rw [removeState_binCount]
    rfl
  obtain ⟨b2, hb2⟩ := findBinForKey_isSome_of_stop
    (show b < (removeState m1 b idx).binCount from by
      rw [removeState_binCount]; exact hblt) hstop
    (by rw [hwrapEq]; exact findBinForKey_head_or_pos hf)
  rw [has_eq_of_findBin hb2, findBin_empty_of_not_mem hnotmem hb2]
  rfl

/-! ## Construction, `clear`, and the `put` wrappers -/

theorem growBinCount_pow2 :
    ∀ (fuel bc capacity : Nat), (∃ k, bc = 32 * 2 ^ k) →
      ∃ k, growBinCount fuel bc capacity = 32 * 2 ^ k := by
  intro fuel
  induction fuel with
  | zero =>
    intro bc cap h
    exact h
  | succ fuel ih =>
    intro bc cap h
    simp only [growBinCount]
    by_cases hlt : bc < cap
    · rw [if_pos hlt]
      refine ih _ _ ?_
      obtain ⟨k, hk⟩ := h
      exact ⟨k + 1, by rw [Nat.shiftLeft_eq, pow_one, hk]; ring⟩
    · rw [if_neg hlt]
      exact h

theorem initialBinCount_pow2 (capacity : Nat) :
    ∃ k, initialBinCount capacity = 32 * 2 ^ k :=
  growBinCount_pow2 capacity MIN_BINS capacity ⟨0, rfl⟩

theorem growBinCount_ge :
    ∀ (fuel bc capacity : Nat), 1 ≤ bc →
      min capacity (bc + fuel) ≤ growBinCount fuel bc capacity := by
  intro fuel
  induction fuel with
  | zero =>
    intro bc cap h
    simp only [growBinCount]
    omega
  | succ fuel ih =>
    intro bc cap h
    simp only [growBinCount]
    by_cases hlt : bc < cap
    · rw [if_pos hlt]
      have hrec := ih (bc <<< 1) cap (by rw [Nat.shiftLeft_eq, pow_one]; omega)
      rw [Nat.shiftLeft_eq, pow_one] at hrec
      rw [Nat.shiftLeft_eq, pow_one]
      omega
    · rw [if_neg hlt]
      omega

theorem initialBinCount_ge (capacity : Nat) : capacity ≤ initialBinCount capacity := by
  have h := growBinCount_ge capacity MIN_BINS capacity (by norm_num [MIN_BINS])
  have h32 : MIN_BINS = 32 := rfl
  unfold initialBinCount
  omega

theorem mkMap_binCount (hashFunc : K → Nat) (capacity : Nat) :
    (mkMap hashFunc capacity : Map K V).binCount = initialBinCount capacity := by
  unfold mkMap binCount
  simp

theorem inv_mkMap (hashFunc : K → Nat) (capacity : Nat) :
    Inv (mkMap hashFunc capacity : Map K V) := by
  constructor
  · rw [mkMap_binCount]
    exact initialBinCount_pow2 capacity
  · rw [List.all_eq_true]
    intro x hx
    have hx2 : x ∈ List.replicate (initialBinCount capacity) (none : Option Nat) := hx
    rw [List.mem_replicate] at hx2
    rw [hx2.2]
    rfl
  · show ((List.replicate (initialBinCount capacity) (none : Option Nat)).filterMap id).Nodup
    rw [filterMap_id_replicate_none]
    exact List.nodup_nil
  · show 0 = countBins (mkMap hashFunc capacity : Map K V)
    unfold countBins
    show 0 = (List.replicate (initialBinCount capacity) (none : Option Nat)).countP _
    rw [countP_isSome_eq_length_filterMap, filterMap_id_replicate_none]
    rfl
  · exact List.nodup_nil
  · intro i hi
    simp only [mkMap, List.length_nil] at hi
    omega

theorem clear_binCount {m : Map K V} : (clear m).binCount = m.binCount := by
  unfold clear clearBins binCount
  simp

theorem inv_clear {m : Map K V} (h : Inv m) : Inv (clear m) := by
  constructor
  · rw [clear_binCount]
    exact h.pow2
  · rw [List.all_eq_true]
    intro x hx
    have hx2 : x ∈ List.replicate m.binCount (none : Option Nat) := hx
    rw [List.mem_replicate] at hx2
    rw [hx2.2]
    rfl
  · show ((List.replicate m.binCount (none : Option Nat)).filterMap id).Nodup
    rw [filterMap_id_replicate_none]
    exact List.nodup_nil
  · show 0 = countBins (clear m)
    unfold countBins
    show 0 = (List.replicate m.binCount (none : Option Nat)).countP _
    rw [countP_isSome_eq_length_filterMap, filterMap_id_replicate_none]
    rfl
  · exact List.nodup_nil
  · intro i hi
    simp only [clear, List.length_nil] at hi
    omega

theorem contain_of_findBin_nonempty {m : Map K V} {key : K} {b idx : Nat}
    (hf : findBinForKey m key = some b) (hbin : m.binAt b = some idx) :
    ∃ p, m.pairs[idx]? = some p ∧ p.1 = key := by
  have hstop := (findBinForKey_spec m key b hf).2
  have he : m.isBinEmpty b = false := isBinEmpty_eq_false_iff.mpr ⟨idx, hbin⟩
  unfold stopBin at hstop
  rw [he, Bool.false_or] at hstop
  obtain ⟨-, idx2, p, hbin2, hp, hpk⟩ := doesBinContain_eq_true_iff.mp hstop
  rw [hbin] at hbin2
  cases hbin2
  exact ⟨p, hp, hpk⟩

theorem inv_put {m : Map K V} (h : Inv m) {key : K} {value : V} {m2 : Map K V}
    (hput : put m key value = some m2) : Inv m2 := by
  cases hfc : findBinForKey m key with
  | none =>
    unfold put at hput
    rw [hfc] at hput
    cases hput
  | some b =>
    cases he : m.isBinEmpty b
    · obtain ⟨idx, hbin⟩ := isBinEmpty_eq_false_iff.mp he
      obtain ⟨p, hp, hpk⟩ := contain_of_findBin_nonempty hfc hbin
      rw [put_eq_overwrite hfc hbin] at hput
      cases hput
      exact inv_overwriteAt h hbin hp hpk
    · rw [put_eq_insert_of_empty hfc he] at hput
      cases hput
      exact inv_insertAt h hfc he

theorem put_roundtrip {m : Map K V} (h : Inv m) {key : K} {value : V}
    {m2 : Map K V} (hput : put m key value = some m2) :
    getConst m2 key = some value ∧
      (m.has key = true → m2.pairs.length = m.pairs.length) ∧
      (m.has key = false → m2.pairs.length = m.pairs.length + 1) := by
  cases hfc : findBinForKey m key with
  | none =>
    unfold put at hput
    rw [hfc] at hput
    cases hput
  | some b =>
    have hhas : m.has key = !(m.isBinEmpty b) := has_eq_of_findBin hfc
    cases he : m.isBinEmpty b
    · obtain ⟨idx, hbin⟩ := isBinEmpty_eq_false_iff.mp he
      obtain ⟨p, hp, hpk⟩ := contain_of_findBin_nonempty hfc hbin
      rw [put_eq_overwrite hfc hbin] at hput
      cases hput
      refine ⟨getConst_overwriteAt h hfc hbin hp hpk, ?_, ?_⟩
      · intro _
        show (m.pairs.set idx (key, value)).length = m.pairs.length
        simp
      · intro hfalse
        rw [hhas, he] at hfalse
        simp at hfalse
    · rw [put_eq_insert_of_empty hfc he] at hput
      cases hput
      refine ⟨getConst_insertAt h hfc he, ?_, ?_⟩
      · intro htrue
        rw [hhas, he] at htrue
        simp at htrue
      · intro _
        exact insertAt_pairs_length

theorem put_binCount {m m2 : Map K V} {key : K} {value : V}
    (hput : put m key value = some m2) : m2.binCount = m.binCount := by
  cases hfc : findBinForKey m key with
  | none =>
    unfold put at hput
    rw [hfc] at hput
    cases hput
  | some b =>
    cases he : m.isBinEmpty b
    · obtain ⟨idx, hbin⟩ := isBinEmpty_eq_false_iff.mp he
      rw [put_eq_overwrite hfc hbin] at hput
      cases hput
      rfl
    · rw [put_eq_insert_of_empty hfc he] at hput
      cases hput
      exact insertAt_binCount

/-! ## Analysis of `operator[]` (write-or-create) -/

theorem inv_preGrow {m : Map K V} (h : Inv m) :
    ∃ m1, (if m.shouldGrow then m.grow else some m) = some m1 ∧ Inv m1 ∧
      m1.pairs = m.pairs ∧ m1.binsInUse = m.binsInUse ∧
      ((m.shouldGrow = true ∧ m1.binCount = 2 * m.binCount) ∨
       (m.shouldGrow = false ∧ m1 = m)) := by
  cases hs : m.shouldGrow
  · exact ⟨m, by simp, h, rfl, rfl, Or.inr ⟨rfl, rfl⟩⟩
  · obtain ⟨m2, hres, hinv, hp, hbc, hbiu⟩ := inv_grow h
    exact ⟨m2, by simp [hres], hinv, hp, hbiu, Or.inl ⟨rfl, hbc⟩⟩

theorem getOrCreate_present [Inhabited V] {m : Map K V} (h : Inv m) {key : K}
    (hhas : m.has key = true) :
    ∃ m1 v, getOrCreate m key = some (m1, v) ∧ Inv m1 ∧ m1.pairs = m.pairs ∧
      m1.binsInUse = m.binsInUse ∧ getConst m key = some v ∧
      ((m.shouldGrow = true ∧ m1.binCount = 2 * m.binCount) ∨
       (m.shouldGrow = false ∧ m1 = m)) := by
  obtain ⟨m1, hpre, hinv1, hpairs, hbiu, hbc⟩ := inv_preGrow h
  have hmem : key ∈ m.pairs.map Prod.fst := h.has_iff_mem_keys.mp hhas
  have hmem1 : key ∈ m1.pairs.map Prod.fst := by rw [hpairs]; exact hmem
  have hhas1 : m1.has key = true := hinv1.has_iff_mem_keys.mpr hmem1
  obtain ⟨b, idx, p, hf1, hbin1, hp1, hpk1⟩ := hinv1.getElem_of_has hhas1
  have he1 : m1.isBinEmpty b = false := isBinEmpty_eq_false_iff.mpr ⟨idx, hbin1⟩
  have hgc : getOrCreate m key = some (m1, p.2) := by
    unfold getOrCreate
    rw [hpre]
    simp [hf1, he1, hbin1, hp1]
  refine ⟨m1, p.2, hgc, hinv1, hpairs, hbiu, ?_, hbc⟩
  have hp0 : m.pairs[idx]? = some p := by rw [← hpairs]; exact hp1
  have hv := h.getConst_of_getElem hp0
  rw [hpk1] at hv
  exact hv

theorem getOrCreate_inv [Inhabited V] {m : Map K V} (h : Inv m) {key : K}
    {m2 : Map K V} {v : V} (hgc : getOrCreate m key = some (m2, v)) : Inv m2 := by
  obtain ⟨m1, hpre, hinv1, -, -, -⟩ := inv_preGrow h
  unfold getOrCreate at hgc
  rw [hpre] at hgc
  simp only [Option.some_bind] at hgc
  cases hf1 : findBinForKey m1 key with
  | none =>
    rw [hf1] at hgc
    cases hgc
  | some b =>
    rw [hf1] at hgc
    cases he1 : m1.isBinEmpty b
    · obtain ⟨idx, hbin⟩ := isBinEmpty_eq_false_iff.mp he1
      obtain ⟨p, hp, -⟩ := contain_of_findBin_nonempty hf1 hbin
      simp only [he1, Bool.false_eq_true, if_false] at hgc
      rw [hbin] at hgc
      simp only [Option.some_bind] at hgc
      rw [hp] at hgc
      cases hgc
      exact hinv1
    · simp only [he1, if_true] at hgc
      have hb : b < m1.binCount := (findBinForKey_spec m1 key b hf1).1
      have hgc2 : (match ((insertAt m1 b key (default : V)).binAt b).bind
          (fun idx => (insertAt m1 b key (default : V)).pairs[idx]?) with
        | some p => some ((insertAt m1 b key (default : V)), p.2)
        | none => none) = some (m2, v) := hgc
      rw [insertAt_binAt_self hb] at hgc2
      simp only [Option.some_bind] at hgc2
      rw [insertAt_pairs_len] at hgc2
      cases hgc2
      exact inv_insertAt hinv1 hf1 he1

theorem getOrCreate_cases [Inhabited V] {m m2 : Map K V} {key : K} {v : V}
    (hgc : getOrCreate m key = some (m2, v)) :
    ∃ m1, (if m.shouldGrow then m.grow else some m) = some m1 ∧
      (m2 = m1 ∨ ∃ b, m2 = insertAt m1 b key (default : V)) := by
  unfold getOrCreate at hgc
  cases hpre : (if m.shouldGrow then m.grow else some m) with
  | none =>
    rw [hpre] at hgc
    cases hgc
  | some m1 =>
    rw [hpre] at hgc
    simp only [Option.some_bind] at hgc
    refine ⟨m1, rfl, ?_⟩
    cases hf1 : findBinForKey m1 key with
    | none =>
      rw [hf1] at hgc
      cases hgc
    | some b =>
      rw [hf1] at hgc
      cases he1 : m1.isBinEmpty b
      · left
        simp only [he1, Bool.false_eq_true, if_false] at hgc
        cases hread : (m1.binAt b).bind (fun idx => m1.pairs[idx]?) with
        | none =>
          simp only [hread] at hgc
          cases hgc
        | some p =>
          simp only [hread] at hgc
          cases hgc
          rfl
      · right
        simp only [he1, if_true] at hgc
        refine ⟨b, ?_⟩
        have hgc2 : (match ((insertAt m1 b key (default : V)).binAt b).bind
            (fun idx => (insertAt m1 b key (default : V)).pairs[idx]?) with
          | some p => some ((insertAt m1 b key (default : V)), p.2)
          | none => none) = some (m2, v) := hgc
        cases hread : ((insertAt m1 b key (default : V)).binAt b).bind
            (fun idx => (insertAt m1 b key (default : V)).pairs[idx]?) with
        | none =>
          simp only [hread] at hgc2
          cases hgc2
        | some p =>
          simp only [hread] at hgc2
          cases hgc2
          rfl

/-! ## Tracking the bin count through every operation -/

theorem rehashGo_binCount :
    ∀ (fuel : Nat) (mm : Map K V) (i : Nat) {m2 : Map K V},
      rehashGo fuel mm i = some m2 → m2.binCount = mm.binCount := by
  intro fuel
  induction fuel with
  | zero =>
    intro mm i m2 h
    cases h
    rfl
  | succ fuel ih =>
    intro mm i m2 h
    simp only [rehashGo] at h
    cases hp : mm.pairs[i]? with
    | none =>
      simp only [hp] at h
      injection h with h2
      rw [← h2]
    | some p =>
      simp only [hp] at h
      cases hfk : findBinForKey mm p.1 with
      | none =>
        simp only [hfk] at h
        cases h
      | some pos =>
        simp only [hfk] at h
        have := ih _ _ h
        rw [this]
        show (mm.bins.set pos (some i)).length = mm.bins.length
        simp

theorem resize_binCount {m : Map K V} {n : Nat} {m2 : Map K V}
    (h : resize m n = some m2) : m2.binCount = n := by
  have h2 := rehashGo_binCount m.pairs.length
    { m with bins := List.replicate n none } 0 h
  rw [h2]
  show (List.replicate n (none : Option Nat)).length = n
  simp

theorem grow_binCount {m m2 : Map K V} (h : grow m = some m2) :
    m2.binCount = 2 * m.binCount := by
  have h2 := resize_binCount h
  rw [h2, Nat.shiftLeft_eq, pow_one]
  omega

theorem shrink_binCount {m m2 : Map K V} (h : shrink m = some m2) :
    m2.binCount = m.binCount / 2 := by
  have h2 := resize_binCount h
  rw [h2, Nat.shiftRight_eq_div_pow, pow_one]

theorem getOrCreate_pow2 [Inhabited V] {m m2 : Map K V} {key : K} {v : V}
    (hpow : ∃ k, m.binCount = 32 * 2 ^ k)
    (hgc : getOrCreate m key = some (m2, v)) :
    ∃ k, m2.binCount = 32 * 2 ^ k := by
  obtain ⟨m1, hpre, hcase⟩ := getOrCreate_cases hgc
  have hm1 : ∃ k, m1.binCount = 32 * 2 ^ k := by
    cases hs : m.shouldGrow
    · rw [hs] at hpre
      simp only [Bool.false_eq_true, if_false, Option.some.injEq] at hpre
      rw [← hpre]
      exact hpow
    · rw [hs] at hpre
      simp only [if_true] at hpre
      obtain ⟨k, hk⟩ := hpow
      rw [grow_binCount hpre, hk]
      exact ⟨k + 1, by ring⟩
  rcases hcase with rfl | ⟨b, rfl⟩
  · exact hm1
  · rw [insertAt_binCount]
    exact hm1

theorem shouldShrink_min_lt {m : Map K V} (hs : m.shouldShrink = true) :
    32 < m.binCount := by
  unfold shouldShrink at hs
  rw [Bool.and_eq_true, decide_eq_true_eq, decide_eq_true_eq] at hs
  have h32 : MIN_BINS = 32 := rfl
  omega

theorem remove_pow2 {m m2 : Map K V} {key : K}
    (hpow : ∃ k, m.binCount = 32 * 2 ^ k) (hrem : remove m key = some m2) :
    ∃ k, m2.binCount = 32 * 2 ^ k := by
  unfold remove at hrem
  cases hpre : (if m.shouldShrink then m.shrink else some m) with
  | none =>
    rw [hpre] at hrem
    cases hrem
  | some m1 =>
    rw [hpre] at hrem
    simp only [Option.some_bind] at hrem
    have hm1 : ∃ k, m1.binCount = 32 * 2 ^ k := by
      cases hs : m.shouldShrink
      · rw [hs] at hpre
        simp only [Bool.false_eq_true, if_false, Option.some.injEq] at hpre
        rw [← hpre]
        exact hpow
      · rw [hs] at hpre
        simp only [if_true] at hpre
        obtain ⟨k, hk⟩ := hpow
        have hlt := shouldShrink_min_lt hs
        have hk1 : 1 ≤ k := by
          by_contra hk0
          push_neg at hk0
          have hkz : k = 0 := by omega
          subst hkz
          simp at hk
          omega
        obtain ⟨k2, rfl⟩ : ∃ k2, k = k2 + 1 := ⟨k - 1, by omega⟩
        rw [shrink_binCount hpre, hk]
        refine ⟨k2, ?_⟩
        rw [show 32 * 2 ^ (k2 + 1) = 2 * (32 * 2 ^ k2) by ring]
        exact Nat.mul_div_cancel_left _ (by norm_num)
    cases hf1 : findBinForKey m1 key with
    | none =>
      rw [hf1] at hrem
      cases hrem
    | some b =>
      rw [hf1] at hrem
      cases he1 : m1.isBinEmpty b
      · simp only [he1, Bool.false_eq_true, if_false] at hrem
        cases hbin : m1.binAt b with
        | none =>
          simp only [hbin] at hrem
          cases hrem
        | some idx =>
          simp only [hbin] at hrem
          cases hrem
          rw [removeState_binCount]
          exact hm1
      · simp only [he1, if_true] at hrem
        cases hrem
        exact hm1

/-! ## Reachable states -/

/-- States reachable from a fresh map through the public mutating
interface.  The Boolean index records whether `remove` steps are
permitted: claim C6's bin-count shape holds on all sequences, while
claim C3's amended invariant holds on remove-free sequences. -/
inductive Reachable : Bool → Map K V → Prop where
  | mk (r : Bool) (hashFunc : K → Nat) (capacity : Nat) :
      Reachable r (mkMap hashFunc capacity)
  | put {r : Bool} {m m2 : Map K V} (key : K) (value : V) :
      Reachable r m → Map.put m key value = some m2 → Reachable r m2
  | upsert [Inhabited V] {r : Bool} {m m2 : Map K V} (key : K) (v : V) :
      Reachable r m → Map.getOrCreate m key = some (m2, v) → Reachable r m2
  | clear {r : Bool} {m : Map K V} : Reachable r m → Reachable r (Map.clear m)
  | copy {r : Bool} {m : Map K V} : Reachable r m → Reachable r (Map.copyMap m)
  | moveDst {r : Bool} {m : Map K V} : Reachable r m → Reachable r (Map.moveMap m).1
  | remove {m m2 : Map K V} (key : K) :
      Reachable true m → Map.remove m key = some m2 → Reachable true m2

theorem reachable_inv : ∀ {r : Bool} {m : Map K V},
    Reachable r m → r = false → Inv m := by
  intro r m hr
  induction hr with
  | mk r hf cap => intro _; exact inv_mkMap hf cap
  | put key value hr hput ih => intro hfalse; exact inv_put (ih hfalse) hput
  | upsert key v hr hgc ih => intro hfalse; exact getOrCreate_inv (ih hfalse) hgc
  | clear hr ih => intro hfalse; exact inv_clear (ih hfalse)
  | copy hr ih => intro hfalse; exact ih hfalse
  | moveDst hr ih => intro hfalse; exact ih hfalse
  | remove key hr hrem ih => intro hfalse; exact absurd hfalse (by simp)

theorem reachable_pow2 : ∀ {r : Bool} {m : Map K V}, Reachable r m →
    ∃ k, m.binCount = 32 * 2 ^ k := by
  intro r m hr
  induction hr with
  | mk r hf cap => rw [mkMap_binCount]; exact initialBinCount_pow2 cap
  | put key value hr hput ih => rw [put_binCount hput]; exact ih
  | upsert key v hr hgc ih => exact getOrCreate_pow2 ih hgc
  | clear hr ih => rw [clear_binCount]; exact ih
  | copy hr ih => exact ih
  | moveDst hr ih => exact ih
  | remove key hr hrem ih => exact remove_pow2 ih hrem

/-! ## The bin-table invariant of claim C3 -/

/-- The invariant exactly as the spec states it: the number of non-EMPTY
bins equals the pair-store size; every live store index sits in exactly
one bin; and the probe walk for each entry's key terminates at that bin
(reachability with no tombstone gap, phrased through `findBinForKey`). -/
def BinInvariant (m : Map K V) : Prop :=
  countBins m = m.pairs.length ∧
  (∀ i < m.pairs.length, m.bins.countP (fun o => o == some i) = 1) ∧
  (∀ i < m.pairs.length,
    ((m.pairs[i]?).map Prod.fst).bind (fun k => (findBinForKey m k).bind m.binAt) = some i)

instance instDecidableBinInvariant (m : Map K V) : Decidable (BinInvariant m) := by
  unfold BinInvariant
  infer_instance

theorem countP_eq_one_of_unique {α : Type} (p : α → Bool) :
    ∀ (l : List α) (b : Nat) (x : α), l[b]? = some x → p x = true →
      (∀ c y, l[c]? = some y → p y = true → c = b) → l.countP p = 1 := by
  intro l
  induction l with
  | nil =>
    intro b x hb
    simp at hb
  | cons z t ih =>
    intro b x hb hpx huniq
    cases b with
    | zero =>
      simp only [List.getElem?_cons_zero, Option.some.injEq] at hb
      subst hb
      rw [List.countP_cons, List.countP_eq_zero.mpr ?_, hpx]
      · rfl
      · intro y hy
        obtain ⟨c, hc⟩ := List.mem_iff_getElem?.mp hy
        intro hpy
        have := huniq (c + 1) y (by rw [List.getElem?_cons_succ]; exact hc) hpy
        omega
    | succ b =>
      simp only [List.getElem?_cons_succ] at hb
      have hpz : p z = false := by
        cases hz : p z
        · rfl
        · have := huniq 0 z (by simp) hz
          omega
      rw [List.countP_cons, hpz]
      simp only [Bool.false_eq_true, if_false, Nat.add_zero]
      refine ih b x hb hpx ?_
      intro c y hc hpy
      have := huniq (c + 1) y (by rw [List.getElem?_cons_succ]; exact hc) hpy
      omega

theorem inv_binInvariant {m : Map K V} (h : Inv m) : BinInvariant m := by
  refine ⟨h.count_eq, ?_, h.finds⟩
  intro i hi
  obtain ⟨b0, p, hp, hf, hbin⟩ := h.findsAt hi
  refine countP_eq_one_of_unique _ m.bins b0 (some i)
    (binAt_eq_some_iff.mp hbin) (by simp) ?_
  intro c y hc hpy
  have hy : y = some i := by simpa using hpy
  subst hy
  exact h.inj (binAt_eq_some_iff.mpr hc) hbin

/-! ## Concrete instances used by the claim theorems -/

/-- The identity hash on `Nat` (keys land at bin `key mod binCount`). -/
def idHash : Nat → Nat := fun k => k

/-- A fresh default map over `Nat` keys and values. -/
def mNN0 : Map Nat Nat := mkMap idHash 0

/-- Folding a sequence of `put key key` calls (abnormal termination of
any step poisons the rest). -/
def putSeq (m : Map Nat Nat) (keys : List Nat) : Option (Map Nat Nat) :=
  keys.foldl (fun acc k => acc.bind (fun mm => put mm k k)) (some m)

theorem putSeq_foldl_inv :
    ∀ (keys : List Nat) (macc : Option (Map Nat Nat)),
      (∀ mm, macc = some mm → Inv mm) →
      ∀ {m2 : Map Nat Nat},
        keys.foldl (fun acc k => acc.bind (fun mm => put mm k k)) macc = some m2 →
        Inv m2 := by
  intro keys
  induction keys with
  | nil =>
    intro macc hacc m2 hf
    exact hacc m2 hf
  | cons k rest ih =>
    intro macc hacc m2 hf
    rw [List.foldl_cons] at hf
    refine ih _ ?_ hf
    intro mm hmm
    cases macc with
    | none => cases hmm
    | some mb =>
      simp only [Option.some_bind] at hmm
      exact inv_put (hacc mb rfl) hmm

theorem putSeq_inv {keys : List Nat} {m m2 : Map Nat Nat}
    (h : Inv m) (hp : putSeq m keys = some m2) : Inv m2 :=
  putSeq_foldl_inv keys (some m) (fun mm hmm => by cases hmm; exact h) hp

/-- Claim C1's fixed probe-divergence state: 32 bins, the entry with key
2 in bin 2 (its hashed bin), the entry with key 34 (hash 34, wrap 2) in
bin 3, bin 1 empty. -/
def mapC1 : Map Nat Nat :=
  { hashFunc := idHash
    pairs := [(2, 0), (34, 1)]
    bins := ((List.replicate 32 (none : Option Nat)).set 2 (some 0)).set 3 (some 1)
    binsInUse := 2 }

/-! ## Claim theorems -/

/-- Claim C1, counterexample.  The claim says the candidate bin sequence
of `findBinForKey` is `wrap(hash(key) + k)` for k = 0, 1, 2, ....  On
`mapC1` and key 34 (hash 34, initial bin `wrap 34 = 2`), that sequence
would examine bin `wrap 35 = 3` next and find the key there
(`findBinForKeyClaimed` returns bin 3, which holds key 34); the code
instead jumps to the raw probe counter, bin 1, which is EMPTY, so the
key present in the map is reported absent. -/
theorem claim_C1_counterexample :
    findBinForKey mapC1 34 = some 1 ∧
    findBinForKeyClaimed mapC1 34 = some 3 ∧
    mapC1.isBinEmpty 1 = true ∧
    mapC1.doesBinContain 3 34 = true ∧
    mapC1.has 34 = false ∧
    findBinForKey mapC1 34 ≠ findBinForKeyClaimed mapC1 34 := by
  refine ⟨by decide, by decide, by decide, by decide, by decide, by decide⟩

/-- Claim C1, amended.  `findBinForKey` examines exactly the candidate
sequence `wrap(hash(key))`, then the raw probe counters 1, 2, 3, ...
taken directly as bin indices (the offset is neither added to the
initial bin nor wrapped), stopping at the first bin that is EMPTY or
whose referenced pair-store entry's key equals the given key, and
aborting (assertion failure in the source) if the counter runs past the
bin table. -/
theorem claim_C1_amended {K V : Type} [DecidableEq K] (m : Map K V) (key : K) :
    findBinForKey m key =
      scanBins m key (m.wrap (m.hash key) :: List.range' 1 (m.binCount + 1)) :=
  findBinForKey_eq_scanBins m key

/-- Claim C2, failing evaluation.  The claim says `put` on an absent key
runs the growth check first and doubles the table at 70 percent load.
In the code `put` has no growth check at all: after 23 distinct puts
into 32 bins the load factor is at the threshold (`shouldGrow` is true),
yet the 24th put still leaves `binCount` at 32, and a 33rd distinct key
makes the probe loop run off the end of the bin table (assertion
failure / undefined behaviour, modelled as `none`). -/
theorem claim_C2_put_never_grows :
    ((putSeq mNN0 (List.range 23)).map shouldGrow) = some true ∧
    ((putSeq mNN0 (List.range 24)).map binCount) = some 32 ∧
    ((putSeq mNN0 (List.range 24)).map size) = some 24 ∧
    ((putSeq mNN0 (List.range 32)).map binCount) = some 32 ∧
    (putSeq mNN0 (List.range 33)).isNone = true := by
  refine ⟨by decide, by decide, by decide, by decide, by decide⟩

/-- A constant hash: every key lands at bin 2, forcing collisions. -/
def collHash : Nat → Nat := fun _ => 2

/-- A fresh default map with the colliding hash. -/
def mColl0 : Map Nat Nat := mkMap collHash 0

/-- After `put 2 10`: key 2 sits in bin 2. -/
def mapC3a : Map Nat Nat := (put mColl0 2 10).getD mColl0

/-- After `put 3 11`: key 3 also hashes to bin 2, which is taken, so the
probe loop places it in bin 1. -/
def mapC3b : Map Nat Nat := (put mapC3a 3 11).getD mColl0

/-- After `remove 2`: bin 2 is vacated to EMPTY with no re-chaining. -/
def mapC3v : Map Nat Nat := (remove mapC3b 2).getD mColl0

/-- Claim C3, counterexample.  The claim says the bin-table invariant —
in particular probe-walk reachability of every remaining entry — is
preserved by `remove`.  After putting colliding keys 2 and 3 and then
removing key 2, the surviving entry (3, 11) is still in the store but
its probe walk stops at the vacated EMPTY bin 2 before reaching bin 1,
so `has 3` is false and the invariant's reachability clause fails. -/
theorem claim_C3_counterexample :
    Reachable true mapC3v ∧
    mapC3v.pairs = [(3, 11)] ∧
    mapC3v.has 3 = false ∧
    ¬ BinInvariant mapC3v := by
  refine ⟨?_, by decide, by decide, by decide⟩
  have h0 : Reachable true mColl0 := Reachable.mk true collHash 0
  have e1 : put mColl0 2 10 = some mapC3a := rfl
  have e2 : put mapC3a 3 11 = some mapC3b := rfl
  have e3 : remove mapC3b 2 = some mapC3v := rfl
  exact Reachable.remove 2 (Reachable.put 3 11 (Reachable.put 2 10 h0 e1) e2) e3

/-- Claim C3, amended.  After every sequence of construction, `put`,
`operator[]` (write-or-create), `clear` and copy/move operations — with
no `remove` — the bin-table invariant holds: the number of non-EMPTY
bins equals the pair-store size, every live store index sits in exactly
one bin, and each entry's bin is reached by its key's probe walk without
first meeting an EMPTY bin.  (`remove` does not preserve the
reachability clause; see the counterexample.) -/
theorem claim_C3_amended {K V : Type} [DecidableEq K] {m : Map K V}
    (hr : Reachable false m) : BinInvariant m :=
  inv_binInvariant (reachable_inv hr rfl)

/-- A remove-free reachable state for the C3 witness. -/
def mapC3w : Map Nat Nat := (put mNN0 5 7).getD mNN0

theorem claim_C3_amended_witness :
    Reachable false mapC3w ∧ BinInvariant mapC3w := by
  have h0 : Reachable false mNN0 := Reachable.mk false idHash 0
  have e1 : put mNN0 5 7 = some mapC3w := rfl
  have hr := Reachable.put 5 7 h0 e1
  exact ⟨hr, claim_C3_amended hr⟩

/-- Claim C4.  For a well-formed map and a present key, `remove`
succeeds, and — on the post-shrink-check state `m1` — the matched bin's
referenced entry is removed from the store by a compacting shift
(`eraseIdx`), `binsInUse` is decremented, every live bin index greater
than the removed one is decremented via the whole-table `fixupBin` scan,
the vacated bin is set EMPTY, and afterwards `has key` is false and
`size` has decreased by exactly one. -/
theorem claim_C4_remove_present {K V : Type} [DecidableEq K] {m : Map K V}
    {key : K} (h : Inv m) (hhas : m.has key = true) :
    ∃ m2 m1 b idx,
      remove m key = some m2 ∧
      ((m.shouldShrink = true ∧ m.shrink = some m1) ∨
        (m.shouldShrink = false ∧ m1 = m)) ∧
      m1.pairs = m.pairs ∧
      findBinForKey m1 key = some b ∧
      m1.binAt b = some idx ∧
      m2.pairs = m1.pairs.eraseIdx idx ∧
      m2.binsInUse + 1 = m1.binsInUse ∧
      m2.bins = (m1.bins.map (fixupBin idx)).set b none ∧
      m2.binAt b = none ∧
      size m2 + 1 = size m ∧
      m2.has key = false := by
  obtain ⟨m1, hpre, hinv1, hpairs, hbiu, hcase⟩ := inv_preShrink h
  have hmem : key ∈ m.pairs.map Prod.fst := h.has_iff_mem_keys.mp hhas
  have hhas1 : m1.has key = true :=
    hinv1.has_iff_mem_keys.mpr (by rw [hpairs]; exact hmem)
  obtain ⟨b, idx, p, hf, hbin, hp, hpk⟩ := hinv1.getElem_of_has hhas1
  have hrem := remove_eq_of_hit hpre hf hbin
  obtain ⟨hlen, hhas2, hbiu2⟩ := remove_hit_spec hinv1 hf hbin hp hpk
  have hblt : b < m1.binCount := (findBinForKey_spec m1 key b hf).1
  refine ⟨removeState m1 b idx, m1, b, idx, hrem, ?_, hpairs, hf, hbin, rfl,
    hbiu2, rfl, removeState_binAt_self hblt, ?_, hhas2⟩
  · rcases hcase with ⟨hs, -⟩ | ⟨hs, heq⟩
    · refine Or.inl ⟨hs, ?_⟩
      rw [hs] at hpre
      simpa using hpre
    · exact Or.inr ⟨hs, heq⟩
  · show (removeState m1 b idx).pairs.length + 1 = m.pairs.length
    rw [← hpairs]
    exact hlen

/-- A one-entry map for the C4 witness. -/
def mapC4w : Map Nat Nat := (put mNN0 7 42).getD mNN0

theorem claim_C4_witness :
    ∃ m2 m1 b idx,
      remove mapC4w 7 = some m2 ∧
      ((mapC4w.shouldShrink = true ∧ mapC4w.shrink = some m1) ∨
        (mapC4w.shouldShrink = false ∧ m1 = mapC4w)) ∧
      m1.pairs = mapC4w.pairs ∧
      findBinForKey m1 7 = some b ∧
      m1.binAt b = some idx ∧
      m2.pairs = m1.pairs.eraseIdx idx ∧
      m2.binsInUse + 1 = m1.binsInUse ∧
      m2.bins = (m1.bins.map (fixupBin idx)).set b none ∧
      m2.binAt b = none ∧
      size m2 + 1 = size mapC4w ∧
      m2.has 7 = false := by
  have hInv : Inv mapC4w :=
    inv_put (inv_mkMap idHash 0) (show put mNN0 7 42 = some mapC4w from rfl)
  exact claim_C4_remove_present hInv (by decide)

/-- Claim C5.  For a well-formed map, a completed `put(key, value)`
followed by a read of `key` returns `value`; if the key was already
present the put overwrote in place and `size` is unchanged, otherwise
`size` grew by exactly one (so N distinct-key puts into an empty map
give size N). -/
theorem claim_C5_put_get {K V : Type} [DecidableEq K] {m m2 : Map K V}
    {key : K} {value : V} (h : Inv m) (hput : put m key value = some m2) :
    getConst m2 key = some value ∧
      (m.has key = true → size m2 = size m) ∧
      (m.has key = false → size m2 = size m + 1) :=
  put_roundtrip h hput

/-- The C5 witness state. -/
def mapC5w : Map Nat Nat := (put mNN0 5 99).getD mNN0

theorem claim_C5_witness :
    Inv mNN0 ∧ put mNN0 5 99 = some mapC5w ∧
      (getConst mapC5w 5 = some 99 ∧
        (mNN0.has 5 = true → size mapC5w = size mNN0) ∧
        (mNN0.has 5 = false → size mapC5w = size mNN0 + 1)) :=
  ⟨inv_mkMap idHash 0, rfl, claim_C5_put_get (inv_mkMap idHash 0) rfl⟩

/-- Claim C6.  For every map reachable through the public interface (so
never moved-from), the bin-table capacity is a power of two and at least
32; and construction rounds the requested capacity up to such a power of
two (the result is at least the request, with floor `MIN_BINS`). -/
theorem claim_C6_binCount {K V : Type} [DecidableEq K] :
    (∀ {r : Bool} {m : Map K V}, Reachable r m →
      32 ≤ m.binCount ∧ ∃ k, m.binCount = 32 * 2 ^ k) ∧
    (∀ capacity : Nat, capacity ≤ initialBinCount capacity ∧
      ∃ k, initialBinCount capacity = 32 * 2 ^ k) := by
  constructor
  · intro r m hr
    obtain ⟨k, hk⟩ := reachable_pow2 hr
    refine ⟨?_, k, hk⟩
    have h1 := Nat.two_pow_pos k
    have h2 : 32 * 1 ≤ 32 * 2 ^ k := Nat.mul_le_mul_left 32 h1
    omega
  · intro capacity
    exact ⟨initialBinCount_ge capacity, initialBinCount_pow2 capacity⟩

theorem claim_C6_witness :
    (32 ≤ (mkMap idHash 100 : Map Nat Nat).binCount ∧
      ∃ k, (mkMap idHash 100 : Map Nat Nat).binCount = 32 * 2 ^ k) ∧
    (100 ≤ initialBinCount 100 ∧ ∃ k, initialBinCount 100 = 32 * 2 ^ k) :=
  ⟨(@claim_C6_binCount Nat Nat _).1
      (Reachable.mk true idHash 100 : Reachable true (mkMap idHash 100 : Map Nat Nat)),
    (@claim_C6_binCount Nat Nat _).2 100⟩

/-- Claim C7.  After `moved = std::move(original)`, the destination
holds exactly the source's prior state (every key resolves to its prior
value) and the moved-from source reports size 0, `isEmpty`, zeroed
counts and null (length-0) bin storage, so destroying it is safe. -/
theorem claim_C7_move {K V : Type} [DecidableEq K] (m : Map K V) :
    (moveMap m).1 = m ∧
    (∀ key, getConst (moveMap m).1 key = getConst m key) ∧
    size (moveMap m).2 = 0 ∧
    isEmpty (moveMap m).2 = true ∧
    (moveMap m).2.bins = [] ∧
    (moveMap m).2.binsInUse = 0 ∧
    (moveMap m).2.binCount = 0 :=
  ⟨rfl, fun _ => rfl, rfl, rfl, rfl, rfl, rfl⟩

/-- Claim C8.  `clear()` empties the pair store (size 0), resets
`binsInUse` to zero and sets every bin to EMPTY, while the bin-table
capacity is left exactly as it was — no shrink happens. -/
theorem claim_C8_clear {K V : Type} [DecidableEq K] (m : Map K V) :
    (clear m).pairs = [] ∧
    size (clear m) = 0 ∧
    (clear m).binsInUse = 0 ∧
    (clear m).bins = List.replicate m.binCount none ∧
    (clear m).binCount = m.binCount ∧
    (∀ b, b < m.binCount → (clear m).isBinEmpty b = true) := by
  refine ⟨rfl, rfl, rfl, rfl, clear_binCount, ?_⟩
  intro b hb
  rw [isBinEmpty_eq_true_iff]
  show ((List.replicate m.binCount (none : Option Nat))[b]?).join = none
  rw [List.getElem?_replicate, if_pos hb]
  rfl

theorem claim_C8_witness :
    (clear mNN0).binCount = mNN0.binCount ∧
    0 < mNN0.binCount ∧
    (clear mNN0).isBinEmpty 0 = true :=
  ⟨(claim_C8_clear mNN0).2.2.2.2.1, by decide,
    (claim_C8_clear mNN0).2.2.2.2.2 0 (by decide)⟩

/-- Claim C9.  In the primary variant (void-returning `remove`), a
completed `remove` of an absent key leaves the pair store, `size` and
`binsInUse` unchanged (silent no-op on the mapping state); but because
the shrink check runs before the lookup, the call still halves the
bin-table capacity (with a rehash) when the shrink condition held on
entry, and is the identity otherwise. -/
theorem claim_C9_remove_absent {K V : Type} [DecidableEq K] {m m2 : Map K V}
    {key : K} (h : Inv m) (hhas : m.has key = false)
    (hrem : remove m key = some m2) :
    m2.pairs = m.pairs ∧ size m2 = size m ∧ m2.binsInUse = m.binsInUse ∧
      (m.shouldShrink = true → m2.binCount = m.binCount / 2) ∧
      (m.shouldShrink = false → m2 = m) := by
  obtain ⟨m1, hpre, hinv1, hpairs, hbiu, hcase⟩ := inv_preShrink h
  have hnot : key ∉ m.pairs.map Prod.fst := by
    intro hmem
    rw [← h.has_iff_mem_keys] at hmem
    rw [hhas] at hmem
    cases hmem
  have hnot1 : key ∉ m1.pairs.map Prod.fst := by rw [hpairs]; exact hnot
  have hm2 : m2 = m1 := by
    unfold remove at hrem
    rw [hpre] at hrem
    simp only [Option.some_bind] at hrem
    cases hf1 : findBinForKey m1 key with
    | none =>
      rw [hf1] at hrem
      cases hrem
    | some b =>
      rw [hf1] at hrem
      have he1 : m1.isBinEmpty b = true := findBin_empty_of_not_mem hnot1 hf1
      simp only [he1, if_true] at hrem
      injection hrem with h2
      exact h2.symm
  subst hm2
  refine ⟨hpairs, ?_, hbiu, ?_, ?_⟩
  · show m2.pairs.length = m.pairs.length
    rw [hpairs]
  · intro hs
    rcases hcase with ⟨-, hbc⟩ | ⟨hs2, -⟩
    · exact hbc
    · rw [hs] at hs2
      cases hs2
  · intro hs
    rcases hcase with ⟨hs2, -⟩ | ⟨-, heq⟩
    · rw [hs] at hs2
      cases hs2
    · exact heq

theorem claim_C9_witness :
    Inv mapC4w ∧ mapC4w.has 9 = false ∧ remove mapC4w 9 = some mapC4w ∧
      (mapC4w.pairs = mapC4w.pairs ∧ size mapC4w = size mapC4w ∧
        mapC4w.binsInUse = mapC4w.binsInUse ∧
        (mapC4w.shouldShrink = true → mapC4w.binCount = mapC4w.binCount / 2) ∧
        (mapC4w.shouldShrink = false → mapC4w = mapC4w)) := by
  have hInv : Inv mapC4w :=
    inv_put (inv_mkMap idHash 0) (show put mNN0 7 42 = some mapC4w from rfl)
  exact ⟨hInv, by decide, rfl,
    claim_C9_remove_absent hInv (show mapC4w.has 9 = false from by decide)
      (show remove mapC4w 9 = some mapC4w from rfl)⟩

/-- Claim C10.  `operator[]` (write-or-create) growth-checks before
looking the key up, so at or above the 70 percent load threshold it
doubles the bin-table capacity and rehashes even when the key is already
present: the call succeeds, the new capacity is twice the old, the pair
store, `size` and `binsInUse` are unchanged, the returned value is the
key's existing value, and the key is still found afterwards. -/
theorem claim_C10_upsert_grows {K V : Type} [DecidableEq K] [Inhabited V]
    {m : Map K V} {key : K} (h : Inv m) (hgrow : m.shouldGrow = true)
    (hhas : m.has key = true) :
    ∃ m2 v, getOrCreate m key = some (m2, v) ∧
      m2.binCount = 2 * m.binCount ∧ m2.pairs = m.pairs ∧
      size m2 = size m ∧ m2.binsInUse = m.binsInUse ∧
      getConst m key = some v ∧ m2.has key = true := by
  obtain ⟨m1, v, hgc, hinv1, hpairs, hbiu, hv, hcase⟩ := getOrCreate_present h hhas
  rcases hcase with ⟨-, hbc⟩ | ⟨hs, -⟩
  · refine ⟨m1, v, hgc, hbc, hpairs, ?_, hbiu, hv, ?_⟩
    · show m1.pairs.length = m.pairs.length
      rw [hpairs]
    · exact hinv1.has_iff_mem_keys.mpr
        (by rw [hpairs]; exact h.has_iff_mem_keys.mp hhas)
  · rw [hgrow] at hs
    cases hs

/-- A 23-entry map in 32 bins: exactly at the 70 percent threshold. -/
def mapC10w : Map Nat Nat := (putSeq mNN0 (List.range 23)).getD mNN0

theorem claim_C10_witness :
    Inv mapC10w ∧ mapC10w.shouldGrow = true ∧ mapC10w.has 5 = true ∧
      (∃ m2 v, getOrCreate mapC10w 5 = some (m2, v) ∧
        m2.binCount = 2 * mapC10w.binCount ∧ m2.pairs = mapC10w.pairs ∧
        size m2 = size mapC10w ∧ m2.binsInUse = mapC10w.binsInUse ∧
        getConst mapC10w 5 = some v ∧ m2.has 5 = true) := by
  have hInv : Inv mapC10w :=
    putSeq_inv (inv_mkMap idHash 0)
      (show putSeq mNN0 (List.range 23) = some mapC10w from rfl)
  exact ⟨hInv, by decide, by decide, claim_C10_upsert_grows hInv (by decide) (by decide)⟩

end Map

end Nge
